import Mathlib

/-!
# Verification of the router core (route tree, flattening, doc merge, guard)

Shallow embedding of the route-registration core of the `ismael1361/router`
repository: the documentation merge (`joinObject`, `joinDocs` of
`src/index.ts`), the path joiner (`joinPath`), the `Layer` route tree with its
`routes` flattening and `executeMiddlewares` loop (`src/Layer.ts`), and the
middleware identity guard (`createDynamicMiddleware` of `src/index.ts`).

JavaScript runtime values that the merge manipulates are embedded as the
inductive type `DVal`:
* `vnull` / `vundef` are the JS `null` / `undefined`;
* `prim s` is a scalar (string, number, boolean) identified by its printed
  form; scalars are modelled as non-enumerable and non-iterable, as numbers
  and booleans are in JS (index enumeration of string characters is not
  modelled);
* `arr` is a JS array, `obj` a plain record (insertion-ordered own keys),
  and `opq tag` an opaque constructed instance (`constructor !== Object`),
  identified by a tag and modelled without enumerable own properties.

The merge of the source can throw a `TypeError` (spreading a non-iterable
existing value when an overlay value is an array); a thrown exception is
embedded as `Except.error ()`.  Because the source recursion descends into
accumulated results, the embedding uses an explicit fuel parameter
(`joinObjectF`); `joinObject` runs it with fuel larger than the nesting depth
of its inputs, which is proved sufficient (`joinObjectF_some`, `joinObject_spec`).
-/

inductive DVal where
  | vnull : DVal
  | vundef : DVal
  | prim : String → DVal
  | arr : List DVal → DVal
  | obj : List (String × DVal) → DVal
  | opq : Nat → DVal
deriving Repr

abbrev Entries := List (String × DVal)

mutual
/-- Structural equality on embedded JS values. -/
def beqD : DVal → DVal → Bool
  | .vnull, .vnull => true
  | .vundef, .vundef => true
  | .prim a, .prim b => a == b
  | .opq a, .opq b => a == b
  | .arr xs, .arr ys => beqListD xs ys
  | .obj xs, .obj ys => beqEntriesD xs ys
  | _, _ => false

def beqListD : List DVal → List DVal → Bool
  | [], [] => true
  | x :: xs, y :: ys => beqD x y && beqListD xs ys
  | _, _ => false

def beqEntriesD : Entries → Entries → Bool
  | [], [] => true
  | (k, v) :: xs, (k2, v2) :: ys => k == k2 && beqD v v2 && beqEntriesD xs ys
  | _, _ => false
end

theorem beq_iff_aux : ∀ n : Nat,
    (∀ a b : DVal, sizeOf a ≤ n → (beqD a b = true ↔ a = b)) ∧
    (∀ xs ys : List DVal, sizeOf xs ≤ n → (beqListD xs ys = true ↔ xs = ys)) ∧
    (∀ es fs : Entries, sizeOf es ≤ n → (beqEntriesD es fs = true ↔ es = fs)) := by
  intro n
  induction n with
  | zero =>
    refine ⟨fun a b h => absurd h ?_, fun xs ys h => absurd h ?_, fun es fs h => absurd h ?_⟩ <;>
      first
      | (cases a <;> simp)
      | (cases xs <;> simp)
      | (cases es <;> simp)
  | succ n ih =>
    obtain ⟨ihD, ihL, ihE⟩ := ih
    refine ⟨fun a b h => ?_, fun xs ys h => ?_, fun es fs h => ?_⟩
    · cases a <;> cases b <;> simp only [beqD] <;> try simp
      · rename_i xs ys
        have hx : sizeOf xs ≤ n := by simp at h; omega
        simp [ihL xs ys hx]
      · rename_i es fs
        have hx : sizeOf es ≤ n := by simp at h; omega
        simp [ihE es fs hx]
    · cases xs with
      | nil => cases ys <;> simp [beqListD]
      | cons x xs =>
        cases ys with
        | nil => simp [beqListD]
        | cons y ys =>
          have hx : sizeOf x ≤ n := by simp at h; omega
          have hxs : sizeOf xs ≤ n := by simp at h; omega
          simp [beqListD, ihD x y hx, ihL xs ys hxs]
    · cases es with
      | nil => cases fs <;> simp [beqEntriesD]
      | cons e es =>
        cases fs with
        | nil => simp [beqEntriesD]
        | cons f fs =>
          obtain ⟨k, v⟩ := e
          obtain ⟨k2, v2⟩ := f
          have hx : sizeOf v ≤ n := by simp at h; omega
          have hes : sizeOf es ≤ n := by simp at h; omega
          simp [beqEntriesD, ihD v v2 hx, ihE es fs hes, and_assoc]

theorem beqD_iff (a b : DVal) : beqD a b = true ↔ a = b :=
  (beq_iff_aux (sizeOf a)).1 a b (Nat.le_refl _)

instance : DecidableEq DVal := fun a b => decidable_of_iff _ (beqD_iff a b)

instance : BEq DVal := ⟨beqD⟩

instance : LawfulBEq DVal where
  eq_of_beq h := (beqD_iff _ _).mp h
  rfl := (beqD_iff _ _).mpr rfl

instance {ε α : Type} [DecidableEq ε] [DecidableEq α] : DecidableEq (Except ε α) := fun a b =>
  match a, b with
  | .ok a, .ok b => decidable_of_iff (a = b) (by simp)
  | .error a, .error b => decidable_of_iff (a = b) (by simp)
  | .ok _, .error _ => isFalse (by simp)
  | .error _, .ok _ => isFalse (by simp)

/-- `Array.isArray(value)`. -/
def isArray : DVal → Bool
  | .arr _ => true
  | _ => false

/-- Source `isConstructedObject` (src/index.ts:477-479):
`typeof value === "object" && value !== null && value.constructor !== Object`.
Arrays and opaque instances satisfy it; plain records, `null` and scalars do
not. -/
def isConstructedObject : DVal → Bool
  | .arr _ => true
  | .opq _ => true
  | _ => false

/-- Modelled from the spec: `deepEqual` of the external `@ismael1361/utils`
dependency (not part of this repository), described by the spec as
"structural/deep equality"; embedded as structural equality of `DVal`. -/
def deepEqual (a b : DVal) : Bool := a == b

/-- The array deduplication of the source (src/index.ts:502-504):
`l.filter((v, i, l) => i === l.findIndex((v2) => deepEqual(v2, v)))` —
keep an element exactly when its index is the first index holding a
deep-equal element. -/
def jsDedup (l : List DVal) : List DVal :=
  (l.enum.filter (fun p => l.findIdx? (fun v2 => deepEqual v2 p.2) = some p.1)).map Prod.snd

/-- First-occurrence deduplication as the spec words it: keep the first
occurrence of each distinct element, preserving overall order.  Proved equal
to the source's `jsDedup`. -/
def dedupFirst : List DVal → List DVal
  | [] => []
  | x :: xs => x :: dedupFirst (xs.filter (fun y => !(deepEqual y x)))
termination_by l => l.length
decreasing_by
  simp only [List.length_cons]
  exact Nat.lt_succ_of_le (List.length_filter_le _ _)

/-- `Object.keys(o).length`: number of own enumerable keys.  Records count
their keys (including keys holding `undefined`), arrays their indices;
scalars, `null`, `undefined` and opaque instances are modelled key-less. -/
def jsKeysLen : DVal → Nat
  | .obj kvs => kvs.length
  | .arr xs => xs.length
  | _ => 0

/-- The own enumerable entries iterated by `for (let key in o)`: a record
yields its entries in insertion order, an array its elements keyed by their
printed index. -/
def entriesOf : DVal → Entries
  | .obj kvs => kvs
  | .arr xs => xs.enum.map (fun p => (toString p.1, p.2))
  | _ => []

/-- Lookup of `result[key]`: first entry with the key, if any. -/
def getKey (res : Entries) (k : String) : Option DVal :=
  (res.find? (fun e => e.1 == k)).map Prod.snd

/-- Assignment `result[key] = v` on a JS object: replaces the value in place
when the key exists (keeping its insertion position), appends otherwise. -/
def setKey : Entries → String → DVal → Entries
  | [], k, v => [(k, v)]
  | e :: rest, k, v => if e.1 == k then (e.1, v) :: rest else e :: setKey rest k v

/-- `[...(result[key] ?? []), ...]`: a missing, `null` or `undefined` existing
value spreads as the empty list, an array as its elements; spreading any
other existing value throws (`none`). -/
def nullishToArr : Option DVal → Option (List DVal)
  | none => some []
  | some .vnull => some []
  | some .vundef => some []
  | some (.arr xs) => some (xs)
  | some _ => none

/-- `result[key] ?? {}`: a missing, `null` or `undefined` existing value is
replaced by an empty record. -/
def nullishToObj : Option DVal → DVal
  | none => DVal.obj []
  | some .vnull => DVal.obj []
  | some .vundef => DVal.obj []
  | some v => v

/-- One entry-iteration pass of `joinObject` (src/index.ts:491-512): the
`for (let key in o)` loop writing into `result`.  `recur` is the recursive
merge call on the existing value, supplied by `joinObjectF` at decreased
fuel.  Branches, in source order: skip `undefined`; store `null`
and non-array constructed values outright; concatenate-and-dedup arrays
(throwing when the existing value is not spreadable); recursively merge plain
records; store scalars. -/
def goEntries (recur : DVal → List DVal → Option (Except Unit DVal))
    (res : Entries) : Entries → Option (Except Unit Entries)
  | [] => some (.ok res)
  | (k, v) :: rest =>
    match v with
    | .vundef => goEntries recur res rest
    | .vnull => goEntries recur (setKey res k .vnull) rest
    | .opq t => goEntries recur (setKey res k (.opq t)) rest
    | .arr xs =>
      match nullishToArr (getKey res k) with
      | none => some (.error ())
      | some prev => goEntries recur (setKey res k (.arr (jsDedup (prev ++ xs)))) rest
    | .obj kvs =>
      match recur (nullishToObj (getKey res k)) [.obj kvs] with
      | none => none
      | some (.error e) => some (.error e)
      | some (.ok m) => goEntries recur (setKey res k m) rest
    | .prim s => goEntries recur (setKey res k (.prim s)) rest

/-- The `forEach` over the filtered source list `[obj, ...objs]` of
`joinObject` (src/index.ts:488-513), threading `result`. -/
def goSources (recur : DVal → List DVal → Option (Except Unit DVal))
    (res : Entries) : List DVal → Option (Except Unit Entries)
  | [] => some (.ok res)
  | s :: rest =>
    match goEntries recur res (entriesOf s) with
    | none => none
    | some (.error e) => some (.error e)
    | some (.ok res2) => goSources recur res2 rest

/-- Fueled embedding of `joinObject` (src/index.ts:481-516).  If the base is
a non-array constructed value the merge short-circuits and returns it.
Otherwise a fresh `result` record is built by iterating the entries of every
source in `[obj, ...objs]` that has at least one own key (the source filter's
first conjunct `!(!Array.isArray(0) && isConstructedObject(0))` is constantly
true since `0` is not an object, leaving `Object.keys(o).length > 0`).
`none` means the fuel ran out — never the case for the fuel chosen by
`joinObject` below. -/
def joinObjectF : Nat → DVal → List DVal → Option (Except Unit DVal)
  | 0, _, _ => none
  | n + 1, base, objs =>
    if !(isArray base) && isConstructedObject base then some (.ok base)
    else
      match goSources (joinObjectF n) [] ((base :: objs).filter (fun o => 0 < jsKeysLen o)) with
      | none => none
      | some (.error e) => some (.error e)
      | some (.ok res) => some (.ok (.obj res))

mutual
/-- Nesting depth of a value: records and arrays are one deeper than their
deepest member. -/
def depD : DVal → Nat
  | .vnull => 0
  | .vundef => 0
  | .prim _ => 0
  | .opq _ => 0
  | .arr xs => depListD xs + 1
  | .obj kvs => depEntriesD kvs + 1

def depListD : List DVal → Nat
  | [] => 0
  | x :: xs => max (depD x) (depListD xs)

def depEntriesD : Entries → Nat
  | [] => 0
  | e :: es => max (depD e.2) (depEntriesD es)
end

/-- Fuel that `joinObject` gives to `joinObjectF`: two more than the nesting
depth of the inputs, proved sufficient below. -/
def joinFuel (base : DVal) (objs : List DVal) : Nat :=
  max (depD base) (depListD objs) + 2

/-- Total embedding of the source `joinObject` (src/index.ts:481-516): the
fueled run at sufficient fuel.  `Except.error ()` is a thrown `TypeError`. -/
def joinObject (base : DVal) (objs : List DVal) : Except Unit DVal :=
  (joinObjectF (joinFuel base objs) base objs).getD (.error ())

/-- Source `joinDocs` (src/index.ts:594-600): drop fragments without own
keys, then left-fold the binary merge starting from an empty record. -/
def joinDocs (docs : List DVal) : Except Unit DVal :=
  (docs.filter (fun d => 0 < jsKeysLen d)).foldlM
    (fun previous current => joinObject previous [current]) (DVal.obj [])

/-! ## Path joiner (src/index.ts:586-588) -/

/-- The per-segment edge trim of `joinPath`:
`p.replace(/(^\/+)|(\/+$)/gi, "")` removes the leading run and the trailing
run of separators (interior runs are untouched). -/
def stripSeps (p : String) : String :=
  String.mk (((p.toList.dropWhile (fun c => c = '/')).reverse.dropWhile (fun c => c = '/')).reverse)

/-- The test `p.trim() !== ""` of `joinPath`: a string trims to empty
exactly when all of its characters are whitespace. -/
def trimsToEmpty (p : String) : Bool :=
  p.toList.all (fun c => c.isWhitespace)

/-- Source `joinPath` (src/index.ts:586-588):
`["", ...paths.map(strip).filter(p => p.trim() !== "")].join("/")` — trim the
separator edges of each segment, drop segments that are blank (empty or
whitespace-only, per `String.prototype.trim`), and join with single
separators after a leading empty segment. -/
def joinPath (paths : List String) : String :=
  String.intercalate "/" ("" :: ((paths.map stripSeps).filter (fun p => !(trimsToEmpty p))))

/-! ## The `Layer` route tree (src/Layer.ts)

Handlers and middleware functions are embedded as references: an identity
(`hid`, standing for the JS function object's identity) plus the optional
`.doc` fragment attached to the function (`middleware()` of src/index.ts sets
it).  The `Layer` class extends `Array<ILayer>`; a node is embedded as its
`path` and base `doc` together with its ordered entry list (`stack`).  The
three `ILayer` entry shapes (src/type.ts:120-142) become the three `LEntry`
constructors; a `route`-type entry owns its child subtree.  In the source a
subtree entry holds a live reference to the child `Layer`, which is built
after being attached; entries being immutable values here, the builder model
below creates the child node and attaches its finished entry list in two
steps. -/

structure HandlerF where
  hid : Nat
  hdoc : Option DVal := none
deriving DecidableEq, Repr

/-- Source `getDocHandles` (src/index.ts:590-592): the attached `.doc`
fragments of the handlers, skipping `undefined` ones and ones without own
keys. -/
def getDocHandles (handles : List HandlerF) : List DVal :=
  (handles.filterMap (fun h => h.hdoc)).filter (fun d => 0 < jsKeysLen d)

/-- One `ILayer` entry of a node's stack.  `middleware` entries carry their
handlers and doc (their stored `path`/`method` are never read by the
flattener or executor and are omitted); `layer` entries are leaf routes with
an absolute path joined at insert time; `routeE` entries are `type: "route"`
subtree references. -/
inductive LEntry where
  | middleware (handle : List HandlerF) (doc : Option DVal) : LEntry
  | layer (path : String) (method : String) (handle : List HandlerF) (doc : Option DVal) : LEntry
  | routeE (path : String) (handle : Option (List HandlerF)) (doc : Option DVal)
      (child : List LEntry) : LEntry
deriving Repr

/-- `IRoute` (src/type.ts:144-150): one flattened route. -/
structure IRoute where
  index : Nat
  path : String
  method : String
  handle : List HandlerF
  doc : DVal
deriving DecidableEq, Repr

def emptyDoc : DVal := .obj []

/-- The loop body of the `routes` getter (src/Layer.ts:180-225), carrying the
two accumulators (`middlewares`, `docs`) and the running entry `index`
(started at -1 and pre-incremented, hence first entry 0).  A `middleware`
entry extends the accumulators; a leaf (`default` case) emits one route; a
`route` entry flattens its child recursively and emits one route per child
route, re-joining paths under the entry's own `path`.  A `joinDocs` throw
aborts the whole getter (`Except`). -/
def routesGo (middlewares : List HandlerF) (docs : List DVal) (index : Nat) :
    List LEntry → Except Unit (List IRoute)
  | [] => .ok []
  | .middleware handle d :: rest =>
    routesGo (middlewares ++ handle) (docs ++ getDocHandles handle ++ [d.getD emptyDoc])
      (index + 1) rest
  | .layer p m handle d :: rest =>
    let handles := middlewares ++ handle
    match joinDocs (docs ++ getDocHandles handles ++ [d.getD emptyDoc]) with
    | .error e0 => .error e0
    | .ok doc =>
      match routesGo middlewares docs (index + 1) rest with
      | .error e0 => .error e0
      | .ok rs => .ok (⟨index, p, m, handles, doc⟩ :: rs)
  | .routeE p handle d child :: rest =>
    match routesGo [] [] 0 child with
    | .error e0 => .error e0
    | .ok crs =>
      match crs.mapM (fun route =>
          let handles := middlewares ++ handle.getD [] ++ route.handle
          (joinDocs (docs ++ getDocHandles handles ++ [d.getD emptyDoc, route.doc])).map
            (fun doc => (⟨index, joinPath [p, route.path], route.method, handles, doc⟩ : IRoute))) with
      | .error e0 => .error e0
      | .ok mine =>
        match routesGo middlewares docs (index + 1) rest with
        | .error e0 => .error e0
        | .ok rs => .ok (mine ++ rs)

/-- The `routes` getter of a node: flatten its stack with fresh
accumulators. -/
def layerRoutes (stack : List LEntry) : Except Unit (List IRoute) :=
  routesGo [] [] 0 stack

/-- A `Layer` node under construction: `new Layer(path, doc)`
(src/Layer.ts:27) starts with an empty stack; `path` defaults to the empty
string and `doc` to an empty record. -/
structure LayerB where
  path : String
  doc : DVal
  stack : List LEntry
deriving Repr

def mkLayer (path : String := "") (doc : DVal := emptyDoc) : LayerB := ⟨path, doc, []⟩

/-- Source `pushPath` (src/Layer.ts:54-80) for a handler-array `handle` (the
only form its callers use): appends one entry whose doc is
`joinDocs(this.doc, ...getDocHandles(...handle), doc)` and returns the new
node state together with the pushed entry's index `this.length` — the index
through which the returned handle's `doc` getter/setter addresses the entry.
The `add` event emission is a side effect that does not change the state. -/
def pushPath (L : LayerB) (isMiddleware : Bool) (method path : String)
    (handle : List HandlerF) (doc : DVal) : Except Unit (LayerB × Nat) :=
  match joinDocs (L.doc :: getDocHandles handle ++ [doc]) with
  | .error e0 => .error e0
  | .ok d2 =>
    let entry := if isMiddleware then LEntry.middleware handle (some d2)
      else LEntry.layer path method handle (some d2)
    .ok (⟨L.path, L.doc, L.stack ++ [entry]⟩, L.stack.length)

/-- The amend-documentation setter of the handle returned by `pushPath`
(src/Layer.ts:76-78): `this[index].doc = doc` replaces the doc of the entry
at the given index, leaving everything else unchanged. -/
def setEntryDoc (e : LEntry) (d : Option DVal) : LEntry :=
  match e with
  | .middleware handle _ => .middleware handle d
  | .layer path method handle _ => .layer path method handle d
  | .routeE path handle _ child => .routeE path handle d child

def amendDoc (L : LayerB) (index : Nat) (d : Option DVal) : LayerB :=
  ⟨L.path, L.doc, L.stack.modify (fun e => setEntryDoc e d) index⟩

/-- `get(path, handle, doc)` (src/Layer.ts:239-241):
`pushPath("layer", "get", joinPath(this.path, path), handle,
joinDocs(this.doc, doc))`. -/
def layerGet (L : LayerB) (path : String) (handle : List HandlerF)
    (doc : DVal := emptyDoc) : Except Unit (LayerB × Nat) :=
  match joinDocs [L.doc, doc] with
  | .error e0 => .error e0
  | .ok d2 => pushPath L false "get" (joinPath [L.path, path]) handle d2

/-- `middleware(handle, doc)` (src/Layer.ts:231-233):
`pushPath("middleware", "use", this.path, handle, joinDocs(this.doc, doc))`. -/
def layerMiddleware (L : LayerB) (handle : List HandlerF)
    (doc : DVal := emptyDoc) : Except Unit (LayerB × Nat) :=
  match joinDocs [L.doc, doc] with
  | .error e0 => .error e0
  | .ok d2 => pushPath L true "use" L.path handle d2

/-- `route(path, doc?)` (src/Layer.ts:92-110, the overload without an
attached `Layer`): creates the child node with prefix
`joinPath(this.path, path)` and the given doc, pushes onto `this` a
`type:"route"` entry holding `path` and the child reference (no entry doc,
no handlers), and returns the child for further building.  With immutable
entries this is split in two: `routeChild` creates the child node, and
`routeAttach` pushes the subtree entry once the child's final stack is
known. -/
def routeChild (L : LayerB) (path : String) (doc : DVal := emptyDoc) : LayerB :=
  mkLayer (joinPath [L.path, path]) doc

def routeAttach (L : LayerB) (path : String) (childStack : List LEntry) : LayerB :=
  ⟨L.path, L.doc, L.stack ++ [LEntry.routeE path none none childStack]⟩

/-! ## Sequential executor (src/Layer.ts:152-173)

Handler bodies are arbitrary JS functions; their observable behavior during
one executor run is abstracted by `SimBeh`. -/

/-- Simulated behavior of one handler when invoked by the sequential
executor: whether it finalizes the response (`headersSent` becomes true)
while running, and whether it calls the callback it was given. -/
structure SimBeh where
  sends : Bool
  callsNext : Bool
deriving DecidableEq, Repr

/-- The chain the executor drives (src/Layer.ts:155-159):
`this.filter(type === "middleware").forEach(push(...handle))` — the handlers
of the node's `middleware`-type entries, in order. -/
def mwChain (stack : List LEntry) : List HandlerF :=
  (stack.filter (fun e => match e with | .middleware _ _ => true | _ => false)).flatMap
    (fun e => match e with | .middleware handle _ => handle | _ => [])

/-- The `for` loop of `executeMiddlewares` (src/Layer.ts:163-170).  State:
whether a response has been finalized (`headersSent`), and the trace of
performed invocations, each recording the invoked position and whether it
received the real continuation (`i >= middlewares.length - 1`) rather than
the no-op `() => {}`.  Before each step the loop breaks if the response is
finalized.  Each invocation is awaited to completion before the loop
continues, and the loop advances by `i + 1` regardless of whether the
handler called the callback it received; only the real continuation, when
called by the final handler, can itself finalize the response
(`nextSends`). -/
def execLoop (ms : List SimBeh) (nextSends : Bool) (i : Nat) (headersSent : Bool)
    (trace : List (Nat × Bool)) : Bool × List (Nat × Bool) :=
  if h : i < ms.length then
    if headersSent then (headersSent, trace)
    else
      let m := ms.get ⟨i, h⟩
      let isLast : Bool := decide (ms.length - 1 ≤ i)
      execLoop ms nextSends (i + 1) (m.sends || (isLast && m.callsNext && nextSends))
        (trace ++ [(i, isLast)])
  else (headersSent, trace)
termination_by ms.length - i

/-- `executeMiddlewares(request, response, next)` on a node, given the
behavior of each handler (by its identity), whether the caller's real `next`
continuation finalizes the response, and the initial `headersSent` state of
the response. -/
def executeMiddlewares (stack : List LEntry) (beh : Nat → SimBeh)
    (nextSends resp0 : Bool) : Bool × List (Nat × Bool) :=
  execLoop ((mwChain stack).map (fun h => beh h.hid)) nextSends 0 resp0 []

/-! ## Middleware identity guard (src/index.ts:748-783) -/

/-- A middleware function as `createDynamicMiddleware` sees it: its JS
reference identity (`ref`), its optional string `id` property, whether its
`name` is `"router"`, and the simulated behavior of its body when invoked:
whether the body calls the request-scoped `req.executeOnce()` toggle (with
the default argument `true`), whether it calls `next`, and whether it
finalizes the response. -/
structure MWFn where
  ref : Nat
  idStr : Option String
  isRouterNamed : Bool
  optsOnce : Bool
  callsNext : Bool
  sends : Bool
deriving DecidableEq, Repr

/-- The guard identifier (src/index.ts:767):
`typeof middleware.id === "string" ? middleware.id : middleware` — the
string id when present, else the function's own reference. -/
inductive GuardId where
  | str (s : String)
  | fnref (n : Nat)
deriving DecidableEq, Repr

def guardId (m : MWFn) : GuardId :=
  match m.idStr with
  | some s => .str s
  | none => .fnref m.ref

/-- `createDynamicMiddleware` returns the middleware unchanged when it is a
named router (src/index.ts:750-752), else the guarding wrapper closure. -/
inductive ChainItem where
  | raw (m : MWFn)
  | wrapped (m : MWFn)
deriving DecidableEq, Repr

def createDynamicMiddleware (m : MWFn) : ChainItem :=
  if m.isRouterNamed then .raw m else .wrapped m

/-- Per-request execution state: the lazily created
`req.__executedMiddlewares__` set of already-executed guard identifiers, the
response's `headersSent` flag, and the trace of underlying-middleware
invocations (by reference). -/
structure ReqState where
  executed : List GuardId
  headersSent : Bool
  invocations : List Nat
deriving DecidableEq, Repr

/-- A new simulated request: no executed identifiers yet, response open. -/
def freshReq : ReqState := ⟨[], false, []⟩

/-- Run the underlying middleware body (through `tryHandler`, whose
error-handling is not observable here): the invocation is recorded; when the
body calls `req.executeOnce()` the installed closure (src/index.ts:770-773)
adds the identifier to the per-request set; the body may finalize the
response.  Returns the new state and whether the body passed control on by
calling `next`. -/
def invokeBody (m : MWFn) (st : ReqState) : ReqState × Bool :=
  (⟨(if m.optsOnce then st.executed ++ [guardId m] else st.executed),
    st.headersSent || m.sends,
    st.invocations ++ [m.ref]⟩, m.callsNext)

/-- One invocation of a chain item (the wrapper body,
src/index.ts:753-779): return early when the response is already finalized
(without calling `next`, so the chain stops); call `next` immediately when
the identifier is already in the per-request set, skipping the underlying
middleware; otherwise install `executeOnce` and invoke the underlying
middleware. -/
def runChainItem (it : ChainItem) (st : ReqState) : ReqState × Bool :=
  match it with
  | .raw m => invokeBody m st
  | .wrapped m =>
    if st.headersSent then (st, false)
    else if guardId m ∈ st.executed then (st, true)
    else invokeBody m st

/-- Drive a resolved handler chain for one simulated request, as the
transport does: invoke the head item, and proceed to the rest exactly when
control was passed on. -/
def runChain (items : List ChainItem) (st : ReqState) : ReqState :=
  match items with
  | [] => st
  | it :: rest =>
    let step := runChainItem it st
    if step.2 then runChain rest step.1 else step.1

/-! ## Deduplication lemmas

`jsDedup` (the source's index-based `filter`/`findIndex` dance) is shown to
equal `dedupFirst` (the spec's wording), via the left-to-right scan
`keepNew`; first-occurrence deduplication is idempotent and absorbs an inner
deduplication of a prefix. -/

theorem deepEqual_iff (a b : DVal) : deepEqual a b = true ↔ a = b := beqD_iff a b

theorem deepEqual_eq_decide (a b : DVal) : deepEqual a b = decide (a = b) := by
  by_cases h : a = b
  · cases h
    rw [(deepEqual_iff a a).mpr rfl]
    simp
  · have h1 : deepEqual a b = false := by
      have h2 : deepEqual a b ≠ true := fun hc => h ((deepEqual_iff a b).mp hc)
      revert h2; cases deepEqual a b <;> simp
    rw [h1]
    simp [h]

theorem deepEqual_comm (a b : DVal) : deepEqual a b = deepEqual b a := by
  simp only [deepEqual_eq_decide]
  simp [eq_comm]

/-- Left-to-right scan characterization of `jsDedup`: keep an element
exactly when nothing deep-equal to it occurred before. -/
def keepNew (pre : List DVal) : List DVal → List DVal
  | [] => []
  | x :: xs =>
    if pre.any (fun y => deepEqual y x) then keepNew (pre ++ [x]) xs
    else x :: keepNew (pre ++ [x]) xs

theorem jsDedup_eq_keepNew_aux : ∀ (xs pre : List DVal),
    (((xs.enumFrom pre.length).filter
        (fun p => (pre ++ xs).findIdx? (fun v2 => deepEqual v2 p.2) = some p.1)).map Prod.snd)
      = keepNew pre xs := by
  intro xs
  induction xs with
  | nil => intro pre; simp [keepNew]
  | cons x rest ih =>
    intro pre
    have hx : deepEqual x x = true := (deepEqual_iff x x).mpr rfl
    have hfind : ((pre ++ x :: rest).findIdx? (fun v2 => deepEqual v2 x) = some pre.length)
        ↔ (pre.any (fun y => deepEqual y x) = false) := by
      rcases hp : pre.findIdx? (fun v2 => deepEqual v2 x) with _ | j
      · have h1 : (pre ++ x :: rest).findIdx? (fun v2 => deepEqual v2 x) = some pre.length := by
          rw [List.findIdx?_append, hp, Option.none_or]
          simp [List.findIdx?_cons, hx]
        have h2 : pre.any (fun y => deepEqual y x) = false := by
          rw [List.any_eq_false]
          intro y hy
          have := List.findIdx?_eq_none_iff.mp hp y hy
          simp [this]
        simp [h1, h2]
      · have hj : j < pre.length := (List.findIdx?_eq_some_iff_findIdx_eq.mp hp).1
        have h1 : (pre ++ x :: rest).findIdx? (fun v2 => deepEqual v2 x) = some j := by
          rw [List.findIdx?_append, hp, Option.or_some]
        have h2 : pre.any (fun y => deepEqual y x) = true := by
          rw [← List.findIdx?_isSome, hp]
          rfl
        rw [h1, h2]
        apply iff_of_false
        · intro hc
          have : j = pre.length := by injection hc
          omega
        · simp
    rw [List.enumFrom_cons, List.filter_cons]
    by_cases hany : pre.any (fun y => deepEqual y x) = true
    · have hdec : decide ((pre ++ x :: rest).findIdx? (fun v2 => deepEqual v2 x)
          = some pre.length) = false := by
        apply decide_eq_false
        intro hc
        rw [hfind.mp hc] at hany
        exact absurd hany (by simp)
      rw [hdec]
      simp only [Bool.false_eq_true, if_false, keepNew, hany, if_true]
      have hpre : pre.length + 1 = (pre ++ [x]).length := by simp
      have hlist : pre ++ x :: rest = (pre ++ [x]) ++ rest := by simp
      rw [hpre, hlist]
      exact ih (pre ++ [x])
    · have hany' : pre.any (fun y => deepEqual y x) = false := by
        revert hany; cases pre.any (fun y => deepEqual y x) <;> simp
      have hdec : decide ((pre ++ x :: rest).findIdx? (fun v2 => deepEqual v2 x)
          = some pre.length) = true := decide_eq_true (hfind.mpr hany')
      rw [hdec]
      simp only [if_true, List.map_cons, keepNew, hany', Bool.false_eq_true, if_false]
      have hpre : pre.length + 1 = (pre ++ [x]).length := by simp
      have hlist : pre ++ x :: rest = (pre ++ [x]) ++ rest := by simp
      rw [hpre, hlist]
      exact congrArg (x :: ·) (ih (pre ++ [x]))

theorem jsDedup_eq_keepNew (l : List DVal) : jsDedup l = keepNew [] l := by
  have := jsDedup_eq_keepNew_aux l []
  simpa [jsDedup, List.enum] using this

theorem keepNew_eq_dedupFirst_filter : ∀ (xs pre : List DVal),
    keepNew pre xs = dedupFirst (xs.filter (fun y => !(pre.any (fun z => deepEqual z y)))) := by
  intro xs
  induction xs with
  | nil => intro pre; simp [keepNew, dedupFirst]
  | cons x rest ih =>
    intro pre
    by_cases hany : pre.any (fun y => deepEqual y x) = true
    · have hpredx : (!(pre.any (fun z => deepEqual z x))) = false := by simp [hany]
      have hcong : rest.filter (fun y => !((pre ++ [x]).any (fun z => deepEqual z y)))
          = rest.filter (fun y => !(pre.any (fun z => deepEqual z y))) := by
        apply List.filter_congr
        intro y _
        simp only [List.any_append, List.any_cons, List.any_nil, Bool.or_false]
        by_cases hxy : deepEqual x y = true
        · have hyx : x = y := (deepEqual_iff x y).mp hxy
          subst hyx
          simp [hany]
        · have h0 : deepEqual x y = false := by revert hxy; cases deepEqual x y <;> simp
          simp [h0]
      rw [List.filter_cons, hpredx]
      simp only [Bool.false_eq_true, if_false, keepNew, hany, if_true]
      rw [ih (pre ++ [x]), hcong]
    · have hany' : pre.any (fun y => deepEqual y x) = false := by
        revert hany; cases pre.any (fun y => deepEqual y x) <;> simp
      have hpredx : (!(pre.any (fun z => deepEqual z x))) = true := by simp [hany']
      rw [List.filter_cons, hpredx]
      simp only [if_true, keepNew, hany', Bool.false_eq_true, if_false]
      rw [ih (pre ++ [x])]
      simp only [dedupFirst]
      congr 1
      rw [List.filter_filter]
      congr 1
      apply List.filter_congr
      intro y _
      simp only [List.any_append, List.any_cons, List.any_nil, Bool.or_false, Bool.not_or,
        deepEqual_comm x y]
      rw [Bool.and_comm]

theorem jsDedup_eq_dedupFirst (l : List DVal) : jsDedup l = dedupFirst l := by
  rw [jsDedup_eq_keepNew, keepNew_eq_dedupFirst_filter]
  simp

theorem dedupFirst_filter (p : DVal → Bool) : ∀ l : List DVal,
    (dedupFirst l).filter p = dedupFirst (l.filter p) := by
  intro l
  induction l using dedupFirst.induct with
  | case1 => simp [dedupFirst]
  | case2 x xs ih =>
    by_cases hp : p x = true
    · simp only [dedupFirst, List.filter_cons, hp, if_true, ih, List.filter_filter]
      congr 2
      apply List.filter_congr
      intro y _
      rw [Bool.and_comm]
    · have hp' : p x = false := by revert hp; cases p x <;> simp
      simp only [dedupFirst, List.filter_cons, hp', Bool.false_eq_true, if_false, ih,
        List.filter_filter]
      congr 1
      apply List.filter_congr
      intro y _
      by_cases hxy : deepEqual y x = true
      · have : y = x := by
          have := deepEqual_eq_decide y x
          rw [hxy] at this
          exact of_decide_eq_true this.symm
        subst this
        simp [hp']
      · have : deepEqual y x = false := by revert hxy; cases deepEqual y x <;> simp
        simp [this]

theorem dedupFirst_append_dedup : ∀ a b : List DVal,
    dedupFirst (dedupFirst a ++ b) = dedupFirst (a ++ b) := by
  intro a
  induction a using dedupFirst.induct with
  | case1 => intro b; simp [dedupFirst]
  | case2 x xs ih =>
    intro b
    have hfilter : (xs.filter (fun y => !(deepEqual y x))).filter (fun y => !(deepEqual y x))
        = xs.filter (fun y => !(deepEqual y x)) := by
      rw [List.filter_filter]
      apply List.filter_congr
      intro y _
      cases deepEqual y x <;> simp
    calc dedupFirst (dedupFirst (x :: xs) ++ b)
        = x :: dedupFirst ((dedupFirst (xs.filter (fun y => !(deepEqual y x))) ++ b).filter
            (fun y => !(deepEqual y x))) := by
          simp [dedupFirst]
      _ = x :: dedupFirst (dedupFirst ((xs.filter (fun y => !(deepEqual y x))).filter
            (fun y => !(deepEqual y x))) ++ b.filter (fun y => !(deepEqual y x))) := by
          rw [List.filter_append, dedupFirst_filter]
      _ = x :: dedupFirst (dedupFirst (xs.filter (fun y => !(deepEqual y x)))
            ++ b.filter (fun y => !(deepEqual y x))) := by rw [hfilter]
      _ = x :: dedupFirst (xs.filter (fun y => !(deepEqual y x))
            ++ b.filter (fun y => !(deepEqual y x))) := by rw [ih]
      _ = x :: dedupFirst ((xs ++ b).filter (fun y => !(deepEqual y x))) := by
          rw [List.filter_append]
      _ = dedupFirst ((x :: xs) ++ b) := by simp [dedupFirst]

theorem dedupFirst_idem (l : List DVal) : dedupFirst (dedupFirst l) = dedupFirst l := by
  have := dedupFirst_append_dedup l []
  simpa using this

theorem jsDedup_idem (l : List DVal) : jsDedup (jsDedup l) = jsDedup l := by
  simp [jsDedup_eq_dedupFirst, dedupFirst_idem]

theorem jsDedup_append_dedup (a b : List DVal) :
    jsDedup (jsDedup a ++ b) = jsDedup (a ++ b) := by
  simp [jsDedup_eq_dedupFirst, dedupFirst_append_dedup]

/-! ## Fuel adequacy for the merge

`joinObjectF` is monotone in its fuel, returns a result whenever the fuel
exceeds the nesting depth of its inputs, and its successful results are
bounded in depth by the inputs.  Together these make the wrapper
`joinObject` a total function that agrees with every sufficiently fueled
run. -/

/-- Fuel refinement: every result of `f` is a result of `g`. -/
def RecLE (f g : DVal → List DVal → Option (Except Unit DVal)) : Prop :=
  ∀ b os r, f b os = some r → g b os = some r

theorem joinObjectF_zero (b : DVal) (os : List DVal) : joinObjectF 0 b os = none := rfl

theorem joinObjectF_succ (n : Nat) (b : DVal) (os : List DVal) :
    joinObjectF (n + 1) b os =
      if !(isArray b) && isConstructedObject b then some (.ok b)
      else
        match goSources (joinObjectF n) [] ((b :: os).filter (fun o => 0 < jsKeysLen o)) with
        | none => none
        | some (.error e) => some (.error e)
        | some (.ok res) => some (.ok (.obj res)) := rfl

theorem goEntries_mono {f g} (hfg : RecLE f g) :
    ∀ (es : Entries) (res : Entries) r,
      goEntries f res es = some r → goEntries g res es = some r := by
  intro es
  induction es with
  | nil => intro res r h; exact h
  | cons e rest ih =>
    intro res r h
    obtain ⟨k, v⟩ := e
    cases v with
    | vundef => exact ih res r h
    | vnull => exact ih _ r h
    | opq t => exact ih _ r h
    | prim s => exact ih _ r h
    | arr xs =>
      simp only [goEntries] at h ⊢
      cases hna : nullishToArr (getKey res k) with
      | none => simp only [hna] at h ⊢; exact h
      | some prev => simp only [hna] at h ⊢; exact ih _ r h
    | obj kvs =>
      simp only [goEntries] at h ⊢
      cases hr : f (nullishToObj (getKey res k)) [DVal.obj kvs] with
      | none =>
        simp only [hr] at h
        exact Option.noConfusion h
      | some er =>
        simp only [hr] at h
        rw [hfg _ _ _ hr]
        cases er with
        | error e0 => exact h
        | ok m => exact ih _ r h

theorem goSources_mono {f g} (hfg : RecLE f g) :
    ∀ (srcs : List DVal) (res : Entries) r,
      goSources f res srcs = some r → goSources g res srcs = some r := by
  intro srcs
  induction srcs with
  | nil => intro res r h; exact h
  | cons s rest ih =>
    intro res r h
    simp only [goSources] at h ⊢
    cases he : goEntries f res (entriesOf s) with
    | none =>
      simp only [he] at h
      exact Option.noConfusion h
    | some er =>
      simp only [he] at h
      rw [goEntries_mono hfg _ _ _ he]
      cases er with
      | error e0 => exact h
      | ok res2 => exact ih res2 r h

theorem joinObjectF_mono : ∀ n, RecLE (joinObjectF n) (joinObjectF (n + 1)) := by
  intro n
  induction n with
  | zero => intro b os r h; exact absurd h (by simp [joinObjectF_zero])
  | succ n ih =>
    intro b os r h
    rw [joinObjectF_succ] at h
    rw [joinObjectF_succ]
    by_cases hg : (!(isArray b) && isConstructedObject b) = true
    · rw [if_pos hg] at h ⊢; exact h
    · rw [if_neg hg] at h ⊢
      cases hs : goSources (joinObjectF n) [] ((b :: os).filter (fun o => 0 < jsKeysLen o)) with
      | none =>
        simp only [hs] at h
        exact Option.noConfusion h
      | some er =>
        simp only [hs] at h
        rw [goSources_mono ih _ _ _ hs]
        exact h

theorem joinObjectF_le {n m : Nat} (hnm : n ≤ m) : RecLE (joinObjectF n) (joinObjectF m) := by
  induction m with
  | zero =>
    have : n = 0 := Nat.le_zero.mp hnm
    subst this
    exact fun _ _ _ h => h
  | succ m ih =>
    rcases Nat.lt_or_ge n (m + 1) with h1 | h2
    · intro b os r h
      exact joinObjectF_mono m _ _ _ (ih (Nat.lt_succ_iff.mp h1) _ _ _ h)
    · have : n = m + 1 := Nat.le_antisymm hnm h2
      subst this
      exact fun _ _ _ h => h

theorem depListD_mem : ∀ (xs : List DVal), ∀ x ∈ xs, depD x ≤ depListD xs := by
  intro xs
  induction xs with
  | nil => intro x hx; cases hx
  | cons y ys ih =>
    intro x hx
    rcases List.mem_cons.mp hx with h | h
    · subst h; simp [depListD]
    · calc depD x ≤ depListD ys := ih x h
        _ ≤ depListD (y :: ys) := by simp [depListD]

theorem depEntriesD_mem : ∀ (es : Entries), ∀ e ∈ es, depD e.2 ≤ depEntriesD es := by
  intro es
  induction es with
  | nil => intro e he; cases he
  | cons f fs ih =>
    intro e he
    rcases List.mem_cons.mp he with h | h
    · subst h; simp [depEntriesD]
    · calc depD e.2 ≤ depEntriesD fs := ih e h
        _ ≤ depEntriesD (f :: fs) := by simp [depEntriesD]

theorem depListD_le {m : Nat} : ∀ (xs : List DVal), (∀ x ∈ xs, depD x ≤ m) → depListD xs ≤ m := by
  intro xs
  induction xs with
  | nil => intro _; simp [depListD]
  | cons y ys ih =>
    intro h
    simp only [depListD, max_le_iff]
    exact ⟨h y (by simp), ih (fun x hx => h x (by simp [hx]))⟩

theorem depEntriesD_le {m : Nat} : ∀ (es : Entries), (∀ e ∈ es, depD e.2 ≤ m) →
    depEntriesD es ≤ m := by
  intro es
  induction es with
  | nil => intro _; simp [depEntriesD]
  | cons f fs ih =>
    intro h
    simp only [depEntriesD, max_le_iff]
    exact ⟨h f (by simp), ih (fun e he => h e (by simp [he]))⟩

theorem entriesOf_dep (s : DVal) : ∀ e ∈ entriesOf s, depD e.2 + 1 ≤ depD s := by
  intro e he
  cases s with
  | obj kvs =>
    simp only [entriesOf] at he
    have := depEntriesD_mem kvs e he
    simp only [depD]
    omega
  | arr xs =>
    simp only [entriesOf] at he
    obtain ⟨p, hp, hpe⟩ := List.mem_map.mp he
    have hmem : p.2 ∈ xs := by
      have h1 : p.2 ∈ xs.enum.map Prod.snd := List.mem_map.mpr ⟨p, hp, rfl⟩
      rw [List.enum_map_snd] at h1
      exact h1
    have := depListD_mem xs p.2 hmem
    have he2 : e.2 = p.2 := by rw [← hpe]
    simp only [depD]
    rw [he2]
    omega
  | vnull => cases he
  | vundef => cases he
  | prim s => cases he
  | opq t => cases he

/-- Depth bound on the values stored in an accumulated result record. -/
def valueBound (B : Nat) (res : Entries) : Prop := ∀ e ∈ res, depD e.2 ≤ B

theorem valueBound_setKey {B : Nat} {v : DVal} (hv : depD v ≤ B) :
    ∀ {res : Entries} (k : String), valueBound B res → valueBound B (setKey res k v) := by
  intro res
  induction res with
  | nil =>
    intro k _ e he
    simp only [setKey] at he
    rcases List.mem_singleton.mp he with h
    subst h
    exact hv
  | cons f fs ih =>
    intro k h e he
    simp only [setKey] at he
    by_cases hk : (f.1 == k) = true
    · rw [if_pos hk] at he
      rcases List.mem_cons.mp he with h1 | h1
      · subst h1; exact hv
      · exact h e (by simp [h1])
    · rw [if_neg hk] at he
      rcases List.mem_cons.mp he with h1 | h1
      · subst h1; exact h e (by simp)
      · exact ih k (fun e2 he2 => h e2 (by simp [he2])) e h1

theorem getKey_dep {B : Nat} {res : Entries} {k : String} {v : DVal}
    (h : valueBound B res) (hg : getKey res k = some v) : depD v ≤ B := by
  simp only [getKey, Option.map_eq_some'] at hg
  obtain ⟨e, he, hev⟩ := hg
  have := List.mem_of_find?_eq_some he
  have := h e this
  rw [hev] at this
  exact this

theorem nullishToObj_dep {B : Nat} {res : Entries} {k : String}
    (h : valueBound B res) : depD (nullishToObj (getKey res k)) ≤ max B 1 := by
  cases hg : getKey res k with
  | none => simp [nullishToObj, depD, depEntriesD]
  | some v =>
    have hv := getKey_dep h hg
    cases v with
    | vnull => simp [nullishToObj, depD, depEntriesD]
    | vundef => simp [nullishToObj, depD, depEntriesD]
    | prim s => simp [nullishToObj, depD]
    | opq t => simp [nullishToObj, depD]
    | arr xs =>
      simp only [nullishToObj]
      simp only [depD] at hv ⊢
      omega
    | obj kvs =>
      simp only [nullishToObj]
      simp only [depD] at hv ⊢
      omega

theorem jsDedup_subset {l : List DVal} : ∀ x ∈ jsDedup l, x ∈ l := by
  rw [jsDedup_eq_dedupFirst]
  induction l using dedupFirst.induct with
  | case1 => intro x hx; simp [dedupFirst] at hx
  | case2 y ys ih =>
    intro x hx
    simp only [dedupFirst] at hx
    rcases List.mem_cons.mp hx with h | h
    · simp [h]
    · have := ih x h
      exact List.mem_cons.mpr (Or.inr (List.mem_of_mem_filter this))

theorem goEntries_bound {f : DVal → List DVal → Option (Except Unit DVal)}
    (hf : ∀ b os r, f b os = some (.ok r) → depD r ≤ max (max (depD b) (depListD os)) 1) :
    ∀ (es res : Entries) (B : Nat) (res' : Entries),
      valueBound B res → (∀ e ∈ es, depD e.2 ≤ B) →
      goEntries f res es = some (.ok res') → valueBound B res' := by
  intro es
  induction es with
  | nil =>
    intro res B res' hres _ h
    simp only [goEntries, Option.some.injEq, Except.ok.injEq] at h
    subst h
    exact hres
  | cons e rest ih =>
    intro res B res' hres hes h
    obtain ⟨k, v⟩ := e
    have hv : depD v ≤ B := hes (k, v) (by simp)
    cases v with
    | vundef => exact ih res B res' hres (fun e2 he2 => hes e2 (by simp [he2])) h
    | vnull =>
      exact ih _ B res' (valueBound_setKey (by simp [depD]) k hres)
        (fun e2 he2 => hes e2 (by simp [he2])) h
    | opq t =>
      exact ih _ B res' (valueBound_setKey (by simp [depD]) k hres)
        (fun e2 he2 => hes e2 (by simp [he2])) h
    | prim s =>
      exact ih _ B res' (valueBound_setKey (by simp [depD]) k hres)
        (fun e2 he2 => hes e2 (by simp [he2])) h
    | arr xs =>
      simp only [goEntries] at h
      cases hna : nullishToArr (getKey res k) with
      | none =>
        simp only [hna] at h
        exact absurd h (by simp)
      | some prev =>
        simp only [hna] at h
        have hxs : depListD xs ≤ B - 1 := by
          simp only [depD] at hv; omega
        have hB1 : 1 ≤ B := by simp only [depD] at hv; omega
        have hprev : depListD prev ≤ B - 1 := by
          cases hg : getKey res k with
          | none =>
            rw [hg] at hna
            simp only [nullishToArr, Option.some.injEq] at hna
            subst hna
            simp [depListD]
          | some w =>
            have hw := getKey_dep hres hg
            rw [hg] at hna
            cases w with
            | vnull =>
              simp only [nullishToArr, Option.some.injEq] at hna
              subst hna
              simp [depListD]
            | vundef =>
              simp only [nullishToArr, Option.some.injEq] at hna
              subst hna
              simp [depListD]
            | prim s2 => simp [nullishToArr] at hna
            | opq t => simp [nullishToArr] at hna
            | obj kvs2 => simp [nullishToArr] at hna
            | arr ws =>
              simp only [nullishToArr, Option.some.injEq] at hna
              subst hna
              simp only [depD] at hw
              omega
        have hstored : depD (.arr (jsDedup (prev ++ xs))) ≤ B := by
          simp only [depD]
          have : depListD (jsDedup (prev ++ xs)) ≤ B - 1 := by
            apply depListD_le
            intro x hx
            have hx2 := jsDedup_subset x hx
            rcases List.mem_append.mp hx2 with h2 | h2
            · exact le_trans (depListD_mem prev x h2) hprev
            · exact le_trans (depListD_mem xs x h2) hxs
          omega
        exact ih _ B res' (valueBound_setKey hstored k hres)
          (fun e2 he2 => hes e2 (by simp [he2])) h
    | obj kvs =>
      simp only [goEntries] at h
      cases hr : f (nullishToObj (getKey res k)) [DVal.obj kvs] with
      | none =>
        simp only [hr] at h
        exact Option.noConfusion h
      | some er =>
        simp only [hr] at h
        cases er with
        | error e0 =>
          exact absurd h (by simp)
        | ok m =>
          have hB1 : 1 ≤ B := by simp only [depD] at hv; omega
          have hm := hf _ _ _ hr
          have hprev := nullishToObj_dep (k := k) hres
          have hlist : depListD [DVal.obj kvs] = depD (DVal.obj kvs) := by
            simp [depListD]
          have hmB : depD m ≤ B := by
            rw [hlist] at hm
            omega
          exact ih _ B res' (valueBound_setKey hmB k hres)
            (fun e2 he2 => hes e2 (by simp [he2])) h

theorem goSources_bound {f : DVal → List DVal → Option (Except Unit DVal)}
    (hf : ∀ b os r, f b os = some (.ok r) → depD r ≤ max (max (depD b) (depListD os)) 1) :
    ∀ (srcs : List DVal) (res : Entries) (B : Nat) (res' : Entries),
      valueBound B res → (∀ s ∈ srcs, ∀ e ∈ entriesOf s, depD e.2 ≤ B) →
      goSources f res srcs = some (.ok res') → valueBound B res' := by
  intro srcs
  induction srcs with
  | nil =>
    intro res B res' hres _ h
    simp only [goSources, Option.some.injEq, Except.ok.injEq] at h
    subst h
    exact hres
  | cons s rest ih =>
    intro res B res' hres hsrcs h
    simp only [goSources] at h
    cases he : goEntries f res (entriesOf s) with
    | none =>
      simp only [he] at h
      exact Option.noConfusion h
    | some er =>
      simp only [he] at h
      cases er with
      | error e0 => exact absurd h (by simp)
      | ok res2 =>
        have h2 := goEntries_bound hf (entriesOf s) res B res2 hres (hsrcs s (by simp)) he
        exact ih res2 B res' h2 (fun s2 hs2 => hsrcs s2 (by simp [hs2])) h

theorem joinObjectF_bound : ∀ (n : Nat) (b : DVal) (os : List DVal) (r : DVal),
    joinObjectF n b os = some (.ok r) → depD r ≤ max (max (depD b) (depListD os)) 1 := by
  intro n
  induction n with
  | zero => intro b os r h; exact absurd h (by simp [joinObjectF_zero])
  | succ n ih =>
    intro b os r h
    rw [joinObjectF_succ] at h
    by_cases hg : (!(isArray b) && isConstructedObject b) = true
    · rw [if_pos hg] at h
      simp only [Option.some.injEq, Except.ok.injEq] at h
      subst h
      omega
    · rw [if_neg hg] at h
      cases hs : goSources (joinObjectF n) [] ((b :: os).filter (fun o => 0 < jsKeysLen o)) with
      | none =>
        simp only [hs] at h
        exact Option.noConfusion h
      | some er =>
        simp only [hs] at h
        cases er with
        | error e0 => exact absurd h (by simp)
        | ok res' =>
          simp only [Option.some.injEq, Except.ok.injEq] at h
          subst h
          have hB : valueBound (max (max (depD b) (depListD os)) 1 - 1) res' := by
            apply goSources_bound ih _ [] _ res' (fun e he => by cases he) _ hs
            intro s hsm e he
            have hs2 : s ∈ b :: os := List.mem_of_mem_filter hsm
            have hds : depD s ≤ max (depD b) (depListD os) := by
              rcases List.mem_cons.mp hs2 with h2 | h2
              · subst h2; omega
              · have := depListD_mem os s h2; omega
            have := entriesOf_dep s e he
            omega
          have := depEntriesD_le res' hB
          simp only [depD]
          omega

theorem goEntries_some {f : DVal → List DVal → Option (Except Unit DVal)} {m : Nat}
    (hfB : ∀ b os r, f b os = some (.ok r) → depD r ≤ max (max (depD b) (depListD os)) 1)
    (hfS : ∀ b os, max (depD b) (depListD os) < m → (f b os).isSome) :
    ∀ (es res : Entries) (B : Nat),
      valueBound B res → (∀ e ∈ es, depD e.2 ≤ B) → (1 ≤ B → B < m) →
      (goEntries f res es).isSome := by
  intro es
  induction es with
  | nil => intro res B _ _ _; simp [goEntries]
  | cons e rest ih =>
    intro res B hres hes hBm
    obtain ⟨k, v⟩ := e
    have hv : depD v ≤ B := hes (k, v) (by simp)
    have hrest : ∀ e2 ∈ rest, depD e2.2 ≤ B := fun e2 he2 => hes e2 (by simp [he2])
    cases v with
    | vundef => exact ih res B hres hrest hBm
    | vnull => exact ih _ B (valueBound_setKey (by simp [depD]) k hres) hrest hBm
    | opq t => exact ih _ B (valueBound_setKey (by simp [depD]) k hres) hrest hBm
    | prim s => exact ih _ B (valueBound_setKey (by simp [depD]) k hres) hrest hBm
    | arr xs =>
      simp only [goEntries]
      cases hna : nullishToArr (getKey res k) with
      | none => simp
      | some prev =>
        have hxs : depListD xs ≤ B - 1 := by simp only [depD] at hv; omega
        have hB1 : 1 ≤ B := by simp only [depD] at hv; omega
        have hprev : depListD prev ≤ B - 1 := by
          cases hg : getKey res k with
          | none =>
            rw [hg] at hna
            simp only [nullishToArr, Option.some.injEq] at hna
            subst hna
            simp [depListD]
          | some w =>
            have hw := getKey_dep hres hg
            rw [hg] at hna
            cases w with
            | vnull =>
              simp only [nullishToArr, Option.some.injEq] at hna
              subst hna
              simp [depListD]
            | vundef =>
              simp only [nullishToArr, Option.some.injEq] at hna
              subst hna
              simp [depListD]
            | prim s2 => simp [nullishToArr] at hna
            | opq t => simp [nullishToArr] at hna
            | obj kvs2 => simp [nullishToArr] at hna
            | arr ws =>
              simp only [nullishToArr, Option.some.injEq] at hna
              subst hna
              simp only [depD] at hw
              omega
        have hstored : depD (.arr (jsDedup (prev ++ xs))) ≤ B := by
          simp only [depD]
          have : depListD (jsDedup (prev ++ xs)) ≤ B - 1 := by
            apply depListD_le
            intro x hx
            have hx2 := jsDedup_subset x hx
            rcases List.mem_append.mp hx2 with h2 | h2
            · exact le_trans (depListD_mem prev x h2) hprev
            · exact le_trans (depListD_mem xs x h2) hxs
          omega
        exact ih _ B (valueBound_setKey hstored k hres) hrest hBm
    | obj kvs =>
      simp only [goEntries]
      have hB1 : 1 ≤ B := by simp only [depD] at hv; omega
      have hBm2 : B < m := hBm hB1
      have hprev := nullishToObj_dep (k := k) hres
      have hcall : max (depD (nullishToObj (getKey res k))) (depListD [DVal.obj kvs]) < m := by
        have hlist : depListD [DVal.obj kvs] = depD (DVal.obj kvs) := by simp [depListD]
        rw [hlist]
        omega
      have hsome := hfS _ _ hcall
      cases hr : f (nullishToObj (getKey res k)) [DVal.obj kvs] with
      | none => rw [hr] at hsome; exact absurd hsome (by simp)
      | some er =>
        cases er with
        | error e0 => simp
        | ok m2 =>
          have hm2 : depD m2 ≤ B := by
            have := hfB _ _ _ hr
            have hlist : depListD [DVal.obj kvs] = depD (DVal.obj kvs) := by simp [depListD]
            rw [hlist] at this
            omega
          exact ih _ B (valueBound_setKey hm2 k hres) hrest hBm

theorem goSources_some {f : DVal → List DVal → Option (Except Unit DVal)} {m : Nat}
    (hfB : ∀ b os r, f b os = some (.ok r) → depD r ≤ max (max (depD b) (depListD os)) 1)
    (hfS : ∀ b os, max (depD b) (depListD os) < m → (f b os).isSome) :
    ∀ (srcs : List DVal) (res : Entries) (B : Nat),
      valueBound B res → (∀ s ∈ srcs, ∀ e ∈ entriesOf s, depD e.2 ≤ B) → (1 ≤ B → B < m) →
      (goSources f res srcs).isSome := by
  intro srcs
  induction srcs with
  | nil => intro res B _ _ _; simp [goSources]
  | cons s rest ih =>
    intro res B hres hsrcs hBm
    simp only [goSources]
    have hsome := goEntries_some hfB hfS (entriesOf s) res B hres (hsrcs s (by simp)) hBm
    cases he : goEntries f res (entriesOf s) with
    | none => rw [he] at hsome; exact absurd hsome (by simp)
    | some er =>
      cases er with
      | error e0 => simp
      | ok res2 =>
        have h2 := goEntries_bound hfB (entriesOf s) res B res2 hres (hsrcs s (by simp)) he
        exact ih res2 B h2 (fun s2 hs2 => hsrcs s2 (by simp [hs2])) hBm

theorem joinObjectF_some : ∀ (n : Nat) (b : DVal) (os : List DVal),
    max (depD b) (depListD os) < n → (joinObjectF n b os).isSome := by
  intro n
  induction n with
  | zero => intro b os h; omega
  | succ n ih =>
    intro b os h
    rw [joinObjectF_succ]
    by_cases hg : (!(isArray b) && isConstructedObject b) = true
    · rw [if_pos hg]; simp
    · rw [if_neg hg]
      have hsrc : ∀ s ∈ (b :: os).filter (fun o => 0 < jsKeysLen o),
          ∀ e ∈ entriesOf s, depD e.2 ≤ max (depD b) (depListD os) - 1 := by
        intro s hsm e he
        have hs2 : s ∈ b :: os := List.mem_of_mem_filter hsm
        have hds : depD s ≤ max (depD b) (depListD os) := by
          rcases List.mem_cons.mp hs2 with h2 | h2
          · subst h2; omega
          · have := depListD_mem os s h2; omega
        have := entriesOf_dep s e he
        omega
      have hBm : 1 ≤ max (depD b) (depListD os) - 1 → max (depD b) (depListD os) - 1 < n := by
        intro h1
        omega
      have hsome := goSources_some (joinObjectF_bound n) ih
        ((b :: os).filter (fun o => 0 < jsKeysLen o)) []
        (max (depD b) (depListD os) - 1) (fun e he => by cases he) hsrc hBm
      cases hs : goSources (joinObjectF n) [] ((b :: os).filter (fun o => 0 < jsKeysLen o)) with
      | none => rw [hs] at hsome; exact absurd hsome (by simp)
      | some er => cases er <;> simp

/-- The wrapper fuel is sufficient: `joinObject` is the value of every
adequately fueled run. -/
theorem joinObject_spec (b : DVal) (os : List DVal) :
    joinObjectF (joinFuel b os) b os = some (joinObject b os) := by
  have h := joinObjectF_some (joinFuel b os) b os (by simp [joinFuel])
  obtain ⟨r, hr⟩ := Option.isSome_iff_exists.mp h
  simp [joinObject, hr]

theorem joinObjectF_agree {n : Nat} {b : DVal} {os : List DVal} {r : Except Unit DVal}
    (h : joinObjectF n b os = some r) : joinObject b os = r := by
  have h1 := joinObject_spec b os
  have h2 := joinObjectF_le (Nat.le_max_left n (joinFuel b os)) b os r h
  have h3 := joinObjectF_le (Nat.le_max_right n (joinFuel b os)) b os _ h1
  rw [h2] at h3
  exact (Option.some.injEq _ _ ▸ h3).symm

/-! ## Merged normal form

Values produced by the merge are in a normal form: `undefined` is never
stored, stored arrays are already deduplicated, and stored records have
unique keys and normal values.  Records in normal form are fixed points of
the merge (`joinObjectF_self`), which is what makes the fold of binary
merges associative. -/

/-- No two entries share a key (as in a JS object). -/
def keysNodupB : Entries → Bool
  | [] => true
  | e :: rest => !(rest.any (fun e2 => e2.1 == e.1)) && keysNodupB rest

mutual
def normalV : DVal → Bool
  | .vundef => false
  | .arr xs => beqListD (jsDedup xs) xs
  | .obj kvs => keysNodupB kvs && normalEntries kvs
  | _ => true

def normalEntries : Entries → Bool
  | [] => true
  | e :: rest => normalV e.2 && normalEntries rest
end

theorem beqListD_iff (xs ys : List DVal) : beqListD xs ys = true ↔ xs = ys :=
  (beq_iff_aux (sizeOf xs)).2.1 xs ys (Nat.le_refl _)

theorem normalV_arr_iff (xs : List DVal) : normalV (.arr xs) = true ↔ jsDedup xs = xs := by
  simp only [normalV]
  exact beqListD_iff _ _

theorem normalEntries_mem {kvs : Entries} (h : normalEntries kvs = true) :
    ∀ e ∈ kvs, normalV e.2 = true := by
  induction kvs with
  | nil => intro e he; cases he
  | cons f fs ih =>
    simp only [normalEntries, Bool.and_eq_true] at h
    intro e he
    rcases List.mem_cons.mp he with h2 | h2
    · subst h2; exact h.1
    · exact ih h.2 e h2

theorem normalEntries_of_mem {kvs : Entries} (h : ∀ e ∈ kvs, normalV e.2 = true) :
    normalEntries kvs = true := by
  induction kvs with
  | nil => rfl
  | cons f fs ih =>
    simp only [normalEntries, Bool.and_eq_true]
    exact ⟨h f (by simp), ih (fun e he => h e (by simp [he]))⟩

theorem getKey_none_iff {res : Entries} {k : String} :
    getKey res k = none ↔ ∀ e ∈ res, (e.1 == k) = false := by
  simp only [getKey, Option.map_eq_none', List.find?_eq_none]
  constructor
  · intro h e he
    have := h e he
    revert this; cases e.1 == k <;> simp
  · intro h e he
    simp [h e he]

theorem setKey_fresh {res : Entries} {k : String} (v : DVal) (h : getKey res k = none) :
    setKey res k v = res ++ [(k, v)] := by
  induction res with
  | nil => rfl
  | cons e rest ih =>
    have h2 := getKey_none_iff.mp h
    have he : (e.1 == k) = false := h2 e (by simp)
    simp only [setKey, he, Bool.false_eq_true, if_false, List.cons_append]
    congr 1
    apply ih
    rw [getKey_none_iff]
    exact fun e2 he2 => h2 e2 (by simp [he2])

theorem getKey_append_single_none {res : Entries} {k k2 : String} {v : DVal}
    (h : getKey res k2 = none) (hne : (k2 == k) = false) :
    getKey (res ++ [(k, v)]) k2 = none := by
  rw [getKey_none_iff] at h ⊢
  intro e he
  rcases List.mem_append.mp he with h2 | h2
  · exact h e h2
  · rcases List.mem_singleton.mp h2 with h3
    subst h3
    have : k2 ≠ k := by
      intro hc; subst hc; simp at hne
    simp only []
    rw [beq_eq_false_iff_ne]
    exact fun hc => this hc.symm

theorem any_setKey_ne {k K : String} (hne : (K == k) = false) (v : DVal) :
    ∀ res : Entries, (setKey res k v).any (fun e => e.1 == K) = res.any (fun e => e.1 == K) := by
  intro res
  induction res with
  | nil =>
    simp only [setKey, List.any_cons, List.any_nil, Bool.or_false]
    rw [show (k == K) = false by rw [beq_eq_false_iff_ne] at hne ⊢; exact fun hc => hne hc.symm]
  | cons e rest ih =>
    simp only [setKey]
    by_cases hk : (e.1 == k) = true
    · rw [if_pos hk]
      simp [List.any_cons]
    · rw [if_neg hk]
      simp [List.any_cons, ih]

theorem keysNodupB_setKey {res : Entries} {k : String} (v : DVal)
    (h : keysNodupB res = true) : keysNodupB (setKey res k v) = true := by
  induction res with
  | nil => simp [setKey, keysNodupB]
  | cons e rest ih =>
    simp only [keysNodupB, Bool.and_eq_true, Bool.not_eq_true'] at h
    obtain ⟨h1, h2⟩ := h
    simp only [setKey]
    by_cases hk : (e.1 == k) = true
    · rw [if_pos hk]
      simp only [keysNodupB, Bool.and_eq_true, Bool.not_eq_true']
      exact ⟨h1, h2⟩
    · rw [if_neg hk]
      simp only [keysNodupB, Bool.and_eq_true, Bool.not_eq_true']
      constructor
      · rw [any_setKey_ne _ v rest]
        · exact h1
        · revert hk; cases e.1 == k <;> simp
      · exact ih h2

theorem normalEntries_setKey {res : Entries} {k : String} {v : DVal}
    (hv : normalV v = true) (h : normalEntries res = true) :
    normalEntries (setKey res k v) = true := by
  induction res with
  | nil => simp [setKey, normalEntries, hv]
  | cons e rest ih =>
    simp only [normalEntries, Bool.and_eq_true] at h
    simp only [setKey]
    by_cases hk : (e.1 == k) = true
    · rw [if_pos hk]
      simp only [normalEntries, Bool.and_eq_true]
      exact ⟨hv, h.2⟩
    · rw [if_neg hk]
      simp only [normalEntries, Bool.and_eq_true]
      exact ⟨h.1, ih h.2⟩

theorem getKey_normal {res : Entries} {k : String} {w : DVal}
    (h : normalEntries res = true) (hg : getKey res k = some w) : normalV w = true := by
  simp only [getKey, Option.map_eq_some'] at hg
  obtain ⟨e, he, hev⟩ := hg
  have := normalEntries_mem h e (List.mem_of_find?_eq_some he)
  rw [hev] at this
  exact this

theorem goEntries_normal {f : DVal → List DVal → Option (Except Unit DVal)}
    (hf : ∀ b os r, f b os = some (.ok r) → normalV r = true) :
    ∀ (es res res' : Entries), keysNodupB res = true → normalEntries res = true →
      goEntries f res es = some (.ok res') →
      keysNodupB res' = true ∧ normalEntries res' = true := by
  intro es
  induction es with
  | nil =>
    intro res res' h1 h2 h
    simp only [goEntries, Option.some.injEq, Except.ok.injEq] at h
    subst h
    exact ⟨h1, h2⟩
  | cons e rest ih =>
    intro res res' h1 h2 h
    obtain ⟨k, v⟩ := e
    cases v with
    | vundef => exact ih res res' h1 h2 h
    | vnull =>
      have hnv : normalV DVal.vnull = true := rfl
      exact ih _ res' (keysNodupB_setKey _ h1) (normalEntries_setKey hnv h2) h
    | opq t =>
      have hnv : normalV (DVal.opq t) = true := rfl
      exact ih _ res' (keysNodupB_setKey _ h1) (normalEntries_setKey hnv h2) h
    | prim s =>
      have hnv : normalV (DVal.prim s) = true := rfl
      exact ih _ res' (keysNodupB_setKey _ h1) (normalEntries_setKey hnv h2) h
    | arr xs =>
      simp only [goEntries] at h
      cases hna : nullishToArr (getKey res k) with
      | none =>
        simp only [hna] at h
        exact absurd h (by simp)
      | some prev =>
        simp only [hna] at h
        have hnorm : normalV (.arr (jsDedup (prev ++ xs))) = true := by
          rw [normalV_arr_iff]
          exact jsDedup_idem _
        exact ih _ res' (keysNodupB_setKey _ h1) (normalEntries_setKey hnorm h2) h
    | obj kvs =>
      simp only [goEntries] at h
      cases hr : f (nullishToObj (getKey res k)) [DVal.obj kvs] with
      | none =>
        simp only [hr] at h
        exact Option.noConfusion h
      | some er =>
        simp only [hr] at h
        cases er with
        | error e0 => exact absurd h (by simp)
        | ok m =>
          exact ih _ res' (keysNodupB_setKey _ h1) (normalEntries_setKey (hf _ _ _ hr) h2) h

theorem goSources_normal {f : DVal → List DVal → Option (Except Unit DVal)}
    (hf : ∀ b os r, f b os = some (.ok r) → normalV r = true) :
    ∀ (srcs : List DVal) (res res' : Entries), keysNodupB res = true →
      normalEntries res = true → goSources f res srcs = some (.ok res') →
      keysNodupB res' = true ∧ normalEntries res' = true := by
  intro srcs
  induction srcs with
  | nil =>
    intro res res' h1 h2 h
    simp only [goSources, Option.some.injEq, Except.ok.injEq] at h
    subst h
    exact ⟨h1, h2⟩
  | cons s rest ih =>
    intro res res' h1 h2 h
    simp only [goSources] at h
    cases he : goEntries f res (entriesOf s) with
    | none =>
      simp only [he] at h
      exact Option.noConfusion h
    | some er =>
      simp only [he] at h
      cases er with
      | error e0 => exact absurd h (by simp)
      | ok res2 =>
        obtain ⟨h3, h4⟩ := goEntries_normal hf (entriesOf s) res res2 h1 h2 he
        exact ih res2 res' h3 h4 h

theorem joinObjectF_normal : ∀ (n : Nat) (b : DVal) (os : List DVal) (r : DVal),
    joinObjectF n b os = some (.ok r) → normalV r = true := by
  intro n
  induction n with
  | zero => intro b os r h; exact absurd h (by simp [joinObjectF_zero])
  | succ n ih =>
    intro b os r h
    rw [joinObjectF_succ] at h
    by_cases hg : (!(isArray b) && isConstructedObject b) = true
    · rw [if_pos hg] at h
      simp only [Option.some.injEq, Except.ok.injEq] at h
      subst h
      cases b <;> simp_all [isArray, isConstructedObject, normalV]
    · rw [if_neg hg] at h
      cases hs : goSources (joinObjectF n) [] ((b :: os).filter (fun o => 0 < jsKeysLen o)) with
      | none =>
        simp only [hs] at h
        exact Option.noConfusion h
      | some er =>
        simp only [hs] at h
        cases er with
        | error e0 => exact absurd h (by simp)
        | ok res' =>
          simp only [Option.some.injEq, Except.ok.injEq] at h
          subst h
          obtain ⟨h3, h4⟩ := goSources_normal ih _ [] res' rfl rfl hs
          simp [normalV, h3, h4]

/-- Entries in merged normal form with fresh unique keys are reproduced
verbatim by the entry loop: the self-pass of a merge output rebuilds it
unchanged. -/
theorem goEntries_selfF : ∀ (n : Nat) (kvs res : Entries),
    normalEntries kvs = true → keysNodupB kvs = true →
    (∀ e ∈ kvs, depD e.2 ≤ n) → (∀ e ∈ kvs, getKey res e.1 = none) →
    goEntries (joinObjectF n) res kvs = some (.ok (res ++ kvs)) := by
  intro n
  induction n using Nat.strong_induction_on with
  | _ n ihn =>
    intro kvs
    induction kvs with
    | nil => intro res _ _ _ _; simp [goEntries]
    | cons e rest ihk =>
      intro res hnorm hnodup hdep hfresh
      obtain ⟨k, v⟩ := e
      simp only [normalEntries, Bool.and_eq_true] at hnorm
      obtain ⟨hnv, hnrest⟩ := hnorm
      simp only [keysNodupB, Bool.and_eq_true, Bool.not_eq_true'] at hnodup
      obtain ⟨hkfresh, hndrest⟩ := hnodup
      have hfreshk : getKey res k = none := hfresh (k, v) (by simp)
      have hrestfresh : ∀ e2 ∈ rest, getKey (res ++ [(k, v)]) e2.1 = none := by
        intro e2 he2
        apply getKey_append_single_none (hfresh e2 (by simp [he2]))
        have := List.any_eq_false.mp hkfresh e2 he2
        revert this; cases e2.1 == k <;> simp
      have hreststep : goEntries (joinObjectF n) (setKey res k v) rest
          = some (.ok (res ++ (k, v) :: rest)) := by
        rw [setKey_fresh v hfreshk]
        have := ihk (res ++ [(k, v)]) hnrest hndrest
          (fun e2 he2 => hdep e2 (by simp [he2])) hrestfresh
        rw [this]
        simp
      cases v with
      | vundef => simp [normalV] at hnv
      | vnull =>
        simp only [goEntries]
        exact hreststep
      | opq t =>
        simp only [goEntries]
        exact hreststep
      | prim s =>
        simp only [goEntries]
        exact hreststep
      | arr xs =>
        simp only [goEntries, hfreshk, nullishToArr, List.nil_append]
        have hdedup : jsDedup xs = xs := (normalV_arr_iff xs).mp hnv
        rw [hdedup]
        exact hreststep
      | obj kvs2 =>
        simp only [goEntries, hfreshk, nullishToObj]
        have hd : depD (DVal.obj kvs2) ≤ n := hdep (k, DVal.obj kvs2) (by simp)
        have hn1 : 1 ≤ n := by simp only [depD] at hd; omega
        obtain ⟨m, hm⟩ : ∃ m, n = m + 1 := ⟨n - 1, by omega⟩
        subst hm
        have hself : joinObjectF (m + 1) (DVal.obj []) [DVal.obj kvs2]
            = some (.ok (DVal.obj kvs2)) := by
          rw [joinObjectF_succ]
          rw [if_neg (by simp [isArray, isConstructedObject])]
          simp only [normalV, Bool.and_eq_true] at hnv
          cases kvs2 with
          | nil => simp [goSources, jsKeysLen, List.filter]
          | cons e2 rest2 =>
            rw [show (List.filter (fun o => decide (0 < jsKeysLen o))
                [DVal.obj [], DVal.obj (e2 :: rest2)]) = [DVal.obj (e2 :: rest2)] by
              simp [List.filter, jsKeysLen]]
            simp only [goSources, entriesOf]
            have hsub := ihn m (by omega) (e2 :: rest2) [] hnv.2 hnv.1
              (fun e3 he3 => by
                have h1 := depEntriesD_mem (e2 :: rest2) e3 he3
                simp only [depD] at hd
                omega)
              (fun e3 _ => rfl)
            rw [hsub]
            simp [goSources]
        rw [hself]
        exact hreststep

/-- A record in merged normal form is a fixed point of the merge with an
empty base. -/
theorem joinObjectF_self (n : Nat) (kvs : Entries) (hn : normalV (DVal.obj kvs) = true)
    (hd : depD (DVal.obj kvs) ≤ n) :
    joinObjectF n (DVal.obj []) [DVal.obj kvs] = some (.ok (DVal.obj kvs)) := by
  cases n with
  | zero => simp only [depD] at hd; omega
  | succ m =>
    rw [joinObjectF_succ]
    rw [if_neg (by simp [isArray, isConstructedObject])]
    simp only [normalV, Bool.and_eq_true] at hn
    cases kvs with
    | nil => simp [goSources, jsKeysLen, List.filter]
    | cons e2 rest2 =>
      rw [show (List.filter (fun o => decide (0 < jsKeysLen o))
          [DVal.obj [], DVal.obj (e2 :: rest2)]) = [DVal.obj (e2 :: rest2)] by
        simp [List.filter, jsKeysLen]]
      simp only [goSources, entriesOf]
      have hsub := goEntries_selfF m (e2 :: rest2) [] hn.2 hn.1
        (fun e3 he3 => by
          have h1 := depEntriesD_mem (e2 :: rest2) e3 he3
          simp only [depD] at hd
          omega)
        (fun e3 _ => rfl)
      rw [hsub]
      simp [goSources]

theorem goSources_append (f : DVal → List DVal → Option (Except Unit DVal)) :
    ∀ (s1 s2 : List DVal) (res : Entries),
      goSources f res (s1 ++ s2)
        = match goSources f res s1 with
          | none => none
          | some (.error e) => some (.error e)
          | some (.ok r2) => goSources f r2 s2 := by
  intro s1
  induction s1 with
  | nil => intro s2 res; simp [goSources]
  | cons s rest ih =>
    intro s2 res
    simp only [List.cons_append, goSources]
    cases he : goEntries f res (entriesOf s) with
    | none => rfl
    | some er =>
      cases er with
      | error e0 => rfl
      | ok res2 => exact ih s2 res2

theorem joinObjectF_obj (n : Nat) (A : Entries) (os : List DVal) :
    joinObjectF (n + 1) (.obj A) os
      = match goSources (joinObjectF n) [] (((DVal.obj A) :: os).filter (fun o => 0 < jsKeysLen o)) with
        | none => none
        | some (.error e) => some (.error e)
        | some (.ok res) => some (.ok (.obj res)) := by
  rw [joinObjectF_succ]
  rw [if_neg (by simp [isArray, isConstructedObject])]

/-- Associativity of the merge fold: merging the result of a binary merge
with a third fragment equals the single three-source merge, exceptions
included. -/
theorem joinObject_assoc_aux (A B C : Entries) :
    joinObject (.obj A) [.obj B, .obj C]
      = match joinObject (.obj A) [.obj B] with
        | .error e0 => .error e0
        | .ok M => joinObject M [.obj C] := by
  set N' : Nat := max (depD (DVal.obj A)) (max (depD (DVal.obj B)) (depD (DVal.obj C))) + 1
    with hN'
  have hsome1 : (joinObjectF (N' + 1) (DVal.obj A) [DVal.obj B]).isSome := by
    apply joinObjectF_some
    simp only [depListD, hN']
    omega
  obtain ⟨r1, hr1⟩ := Option.isSome_iff_exists.mp hsome1
  have hAB : joinObject (DVal.obj A) [DVal.obj B] = r1 := joinObjectF_agree hr1
  have hr1u := hr1
  rw [joinObjectF_obj] at hr1u
  cases hg1 : goSources (joinObjectF N') []
      (((DVal.obj A) :: [DVal.obj B]).filter (fun o => 0 < jsKeysLen o)) with
  | none =>
    rw [hg1] at hr1u
    exact Option.noConfusion hr1u
  | some g1 =>
    rw [hg1] at hr1u
    cases g1 with
    | error e0 =>
      have hr1e : r1 = .error e0 := by
        simp only [Option.some.injEq] at hr1u
        exact hr1u.symm
      have hABC : joinObjectF (N' + 1) (DVal.obj A) [DVal.obj B, DVal.obj C]
          = some (.error e0) := by
        rw [joinObjectF_obj]
        rw [show ((DVal.obj A) :: [DVal.obj B, DVal.obj C])
            = ((DVal.obj A) :: [DVal.obj B]) ++ [DVal.obj C] from rfl]
        rw [List.filter_append, goSources_append, hg1]
      rw [joinObjectF_agree hABC, hAB, hr1e]
    | ok res1 =>
      have hr1o : r1 = .ok (.obj res1) := by
        simp only [Option.some.injEq] at hr1u
        exact hr1u.symm
      rw [hr1o] at hr1 hAB
      have hnorm := joinObjectF_normal _ _ _ _ hr1
      simp only [normalV, Bool.and_eq_true] at hnorm
      have hbound := joinObjectF_bound _ _ _ _ hr1
      have hsome3 : (joinObjectF (N' + 1) (DVal.obj res1) [DVal.obj C]).isSome := by
        apply joinObjectF_some
        simp only [depListD] at hbound ⊢
        omega
      obtain ⟨r3, hr3⟩ := Option.isSome_iff_exists.mp hsome3
      have hMC : joinObject (DVal.obj res1) [DVal.obj C] = r3 := joinObjectF_agree hr3
      have hr3u := hr3
      rw [joinObjectF_obj] at hr3u
      have hcenter : joinObjectF (N' + 1) (DVal.obj A) [DVal.obj B, DVal.obj C] = some r3 := by
        rw [joinObjectF_obj]
        rw [show ((DVal.obj A) :: [DVal.obj B, DVal.obj C])
            = ((DVal.obj A) :: [DVal.obj B]) ++ [DVal.obj C] from rfl]
        rw [List.filter_append, goSources_append, hg1]
        cases res1 with
        | nil =>
          rw [show (((DVal.obj ([] : Entries)) :: [DVal.obj C]).filter
              (fun o => 0 < jsKeysLen o)) = [DVal.obj C].filter (fun o => 0 < jsKeysLen o) by
            simp [List.filter, jsKeysLen]] at hr3u
          exact hr3u
        | cons e1 rest1 =>
          rw [show (((DVal.obj (e1 :: rest1)) :: [DVal.obj C]).filter
              (fun o => 0 < jsKeysLen o))
              = (DVal.obj (e1 :: rest1)) :: ([DVal.obj C].filter (fun o => 0 < jsKeysLen o)) by
            simp [List.filter, jsKeysLen]] at hr3u
          simp only [goSources, entriesOf] at hr3u
          have hself := goEntries_selfF N' (e1 :: rest1) [] hnorm.2 hnorm.1
            (fun e3 he3 => by
              have h1 := depEntriesD_mem (e1 :: rest1) e3 he3
              have h2 : depD (DVal.obj (e1 :: rest1)) = depEntriesD (e1 :: rest1) + 1 := by
                simp [depD]
              have h3 : depListD [DVal.obj B] = max (depD (DVal.obj B)) 0 := by
                simp [depListD]
              rw [hN']
              omega)
            (fun e3 _ => rfl)
          rw [hself] at hr3u
          simp only [List.nil_append] at hr3u
          exact hr3u
      rw [joinObjectF_agree hcenter, hAB]
      exact hMC.symm

/-! ## Merge facts used by the claims -/

/-- An opaque constructed instance short-circuits every merge into it. -/
theorem joinObjectF_opq (n : Nat) (t : Nat) (os : List DVal) :
    joinObjectF (n + 1) (.opq t) os = some (.ok (.opq t)) := by
  rw [joinObjectF_succ]
  rw [if_pos (by simp [isArray, isConstructedObject])]

/-- Forward opaque-keep at the key level: merging a plain record over an
existing opaque value keeps the opaque value, because the per-key recursion
short-circuits on the opaque base. -/
theorem joinObjectF_opaque_keep (n t : Nat) (kvs : Entries) :
    joinObjectF (n + 2) (.obj [("x", .opq t)]) [.obj [("x", .obj kvs)]]
      = some (.ok (.obj [("x", .opq t)])) := by
  rw [joinObjectF_obj]
  rw [show (List.filter (fun o => decide (0 < jsKeysLen o))
      [DVal.obj [("x", DVal.opq t)], DVal.obj [("x", DVal.obj kvs)]])
      = [DVal.obj [("x", DVal.opq t)], DVal.obj [("x", DVal.obj kvs)]] by
    simp [List.filter, jsKeysLen]]
  simp only [goSources, entriesOf, goEntries, setKey, getKey, List.find?, nullishToObj,
    Option.map_some', Option.map_none', beq_self_eq_true, if_true]
  rw [show joinObjectF (n + 1) (DVal.opq t) [DVal.obj kvs] = some (.ok (.opq t)) from
    joinObjectF_opq n t _]

theorem joinObject_opaque_keep (t : Nat) (kvs : Entries) :
    joinObject (.obj [("x", .opq t)]) [.obj [("x", .obj kvs)]]
      = .ok (.obj [("x", .opq t)]) :=
  joinObjectF_agree (joinObjectF_opaque_keep 0 t kvs)

/-- Merging a plain record base with an opaque overlay value stores the
opaque value over the (rebuilt) base value at that key. -/
theorem joinObjectF_opaque_override (n t : Nat) :
    joinObjectF (n + 2) (.obj [("x", .obj [("nested", .prim "1")])])
      [.obj [("x", .opq t)]]
      = some (.ok (.obj [("x", .opq t)])) := by
  rw [joinObjectF_obj]
  rw [show (List.filter (fun o => decide (0 < jsKeysLen o))
      [DVal.obj [("x", DVal.obj [("nested", DVal.prim "1")])], DVal.obj [("x", DVal.opq t)]])
      = [DVal.obj [("x", DVal.obj [("nested", DVal.prim "1")])], DVal.obj [("x", DVal.opq t)]] by
    simp [List.filter, jsKeysLen]]
  simp only [goSources, entriesOf, goEntries, setKey, getKey, List.find?, nullishToObj,
    Option.map_some', Option.map_none', beq_self_eq_true, if_true]
  rw [show joinObjectF (n + 1) (DVal.obj []) [DVal.obj [("nested", DVal.prim "1")]]
      = some (.ok (DVal.obj [("nested", DVal.prim "1")])) by
    rw [joinObjectF_succ]
    simp [isArray, isConstructedObject, goSources, entriesOf, goEntries, setKey, getKey,
      jsKeysLen, List.filter]]
  simp [goEntries, setKey, getKey, goSources]

theorem joinObject_opaque_override (t : Nat) :
    joinObject (.obj [("x", .obj [("nested", .prim "1")])]) [.obj [("x", .opq t)]]
      = .ok (.obj [("x", .opq t)]) :=
  joinObjectF_agree (joinObjectF_opaque_override 0 t)

/-- The array-merge rule at the key level: an overlay list is concatenated
onto the existing list and deduplicated keeping first occurrences. -/
theorem joinObjectF_array_merge (n : Nat) (k : String) (ys xs : List DVal) :
    joinObjectF (n + 2) (.obj [(k, .arr ys)]) [.obj [(k, .arr xs)]]
      = some (.ok (.obj [(k, .arr (dedupFirst (ys ++ xs)))])) := by
  rw [joinObjectF_obj]
  rw [show (List.filter (fun o => decide (0 < jsKeysLen o))
      [DVal.obj [(k, DVal.arr ys)], DVal.obj [(k, DVal.arr xs)]])
      = [DVal.obj [(k, DVal.arr ys)], DVal.obj [(k, DVal.arr xs)]] by
    simp [List.filter, jsKeysLen]]
  simp only [goSources, entriesOf, goEntries, setKey, getKey, List.find?, nullishToArr,
    Option.map_some', Option.map_none', beq_self_eq_true, if_true, List.nil_append]
  rw [show (jsDedup (jsDedup ys ++ xs)) = dedupFirst (ys ++ xs) by
    rw [jsDedup_append_dedup, jsDedup_eq_dedupFirst]]

theorem joinObject_array_merge (k : String) (ys xs : List DVal) :
    joinObject (.obj [(k, .arr ys)]) [.obj [(k, .arr xs)]]
      = .ok (.obj [(k, .arr (dedupFirst (ys ++ xs)))]) :=
  joinObjectF_agree (joinObjectF_array_merge 0 k ys xs)

/-- A record already in merged normal form is unchanged by merging an empty
overlay into it. -/
theorem joinObjectF_normal_id (n : Nat) (X : Entries) (hn : normalV (.obj X) = true)
    (hd : depD (.obj X) ≤ n) :
    joinObjectF n (.obj X) [.obj []] = some (.ok (.obj X)) := by
  cases n with
  | zero => simp only [depD] at hd; omega
  | succ m =>
    rw [joinObjectF_obj]
    simp only [normalV, Bool.and_eq_true] at hn
    cases X with
    | nil => simp [goSources, jsKeysLen, List.filter]
    | cons e rest =>
      rw [show (List.filter (fun o => decide (0 < jsKeysLen o))
          [DVal.obj (e :: rest), DVal.obj []]) = [DVal.obj (e :: rest)] by
        simp [List.filter, jsKeysLen]]
      simp only [goSources, entriesOf]
      have hself := goEntries_selfF m (e :: rest) [] hn.2 hn.1
        (fun e3 he3 => by
          have h1 := depEntriesD_mem (e :: rest) e3 he3
          simp only [depD] at hd
          omega)
        (fun e3 _ => rfl)
      rw [hself]
      simp [goSources]

/-- An empty overlay record and no overlay at all produce the same merge
(both sides rebuild the base into merged normal form). -/
theorem joinObject_empty_overlay (X : Entries) :
    joinObject (.obj X) [.obj []] = joinObject (.obj X) [] := by
  have heq : ∀ n : Nat, joinObjectF (n + 1) (.obj X) [.obj []]
      = joinObjectF (n + 1) (.obj X) [] := by
    intro n
    rw [joinObjectF_obj, joinObjectF_obj]
    rw [show ((DVal.obj X) :: [DVal.obj []]) = ((DVal.obj X) :: []) ++ [DVal.obj []] from rfl]
    rw [List.filter_append]
    rw [show (List.filter (fun o => decide (0 < jsKeysLen o)) [DVal.obj []]) = [] by
      simp [List.filter, jsKeysLen]]
    rw [List.append_nil]
  have h1 := joinObject_spec (.obj X) [.obj []]
  have hf : joinFuel (.obj X) [.obj []] = (joinFuel (.obj X) [.obj []] - 1) + 1 := by
    simp [joinFuel]
  rw [hf, heq] at h1
  exact (joinObjectF_agree h1).symm

/-- The merge of a normal-form record with an empty overlay returns the
record unchanged (instance of `joinObjectF_normal_id` at the wrapper's own
fuel). -/
theorem joinObject_normal_id (X : Entries) (hn : normalV (.obj X) = true) :
    joinObject (.obj X) [.obj []] = .ok (.obj X) := by
  have hd : depD (DVal.obj X) ≤ joinFuel (DVal.obj X) [DVal.obj []] := by
    have h1 := Nat.le_max_left (depD (DVal.obj X)) (depListD [DVal.obj []])
    simp only [joinFuel]
    omega
  simp only [joinObject]
  rw [joinObjectF_normal_id _ X hn hd]
  rfl

/-! ## The claims on the documentation merge (C4, C5, C6) -/

/-- C4 (corrected).  Per-key opaque handling of the documentation merge: in
both orders the **opaque** value wins.  When the existing value at a key is
an opaque constructed instance, merging a plain record over it keeps the
opaque instance (the per-key recursion short-circuits on the opaque base and
ignores the overlay); in the reverse order an opaque overlay value is stored
over the plain base value.  The spec's claim that the overlay record
`{nested: 1}` replaces the opaque base value is refuted by
`C4_overlay_does_not_replace_opaque`. -/
theorem C4_opaque_merge (t : Nat) (kvs : Entries) :
    joinObject (.obj [("x", .opq t)]) [.obj [("x", .obj kvs)]]
      = .ok (.obj [("x", .opq t)])
    ∧ joinObject (.obj [("x", .obj [("nested", .prim "1")])]) [.obj [("x", .opq t)]]
      = .ok (.obj [("x", .opq t)]) :=
  ⟨joinObject_opaque_keep t kvs, joinObject_opaque_override t⟩

/-- C4, counterexample to the claimed direction: merging `{x: instance}`
with the overlay `{x: {nested: "1"}}` yields `{x: instance}`, not the
claimed `{x: {nested: "1"}}`. -/
theorem C4_overlay_does_not_replace_opaque :
    joinObject (.obj [("x", .opq 7)]) [.obj [("x", .obj [("nested", .prim "1")])]]
      = .ok (.obj [("x", .opq 7)])
    ∧ joinObject (.obj [("x", .opq 7)]) [.obj [("x", .obj [("nested", .prim "1")])]]
      ≠ .ok (.obj [("x", .obj [("nested", .prim "1")])]) := by
  decide

/-- C5 (corrected).  The merge-fold algebra that actually holds: `merge(X, {})`
returns `X` only for `X` already in merged normal form (deduplicated arrays,
no duplicate keys, no `undefined`) — `C5_empty_merge_not_identity` refutes
the unconditional identity; the associativity
`merge(merge(A,B), C) = merge(A,B,C)` holds (with a thrown `TypeError`
propagating); and empty-record fragments anywhere in the `joinDocs` argument
list are dropped by its filter, perturbing nothing. -/
theorem C5_merge_fold_algebra (X A B C : Entries) (xs ys : List DVal)
    (hn : normalV (.obj X) = true) :
    joinObject (.obj X) [.obj []] = .ok (.obj X)
    ∧ joinObject (.obj A) [.obj B, .obj C]
        = (match joinObject (.obj A) [.obj B] with
           | .error e0 => .error e0
           | .ok M => joinObject M [.obj C])
    ∧ joinDocs (xs ++ DVal.obj [] :: ys) = joinDocs (xs ++ ys) :=
  ⟨joinObject_normal_id X hn, joinObject_assoc_aux A B C, by
    simp [joinDocs, List.filter_append, jsKeysLen]⟩

theorem C5_merge_fold_algebra_witness :
    normalV (DVal.obj [("a", DVal.prim "1")]) = true
    ∧ (joinObject (DVal.obj [("a", DVal.prim "1")]) [.obj []]
        = .ok (DVal.obj [("a", DVal.prim "1")])
      ∧ joinObject (DVal.obj [("k", DVal.prim "v")]) [.obj [("k2", DVal.prim "w")], .obj []]
          = (match joinObject (DVal.obj [("k", DVal.prim "v")]) [.obj [("k2", DVal.prim "w")]] with
             | .error e0 => .error e0
             | .ok M => joinObject M [.obj []])
      ∧ joinDocs ([DVal.obj [("a", DVal.prim "1")]] ++ DVal.obj [] :: [])
          = joinDocs ([DVal.obj [("a", DVal.prim "1")]] ++ [])) :=
  ⟨by decide, C5_merge_fold_algebra [("a", DVal.prim "1")] [("k", DVal.prim "v")]
    [("k2", DVal.prim "w")] [] [DVal.obj [("a", DVal.prim "1")]] [] (by decide)⟩

/-- C5, counterexample to the unconditional identity: `merge(X, {})` rebuilds
`X`, deduplicating its arrays, so `X = {tags: ["a","a"]}` comes back as
`{tags: ["a"]}`, not as itself. -/
theorem C5_empty_merge_not_identity :
    joinObject (.obj [("tags", .arr [.prim "a", .prim "a"])]) [.obj []]
      = .ok (.obj [("tags", .arr [.prim "a"])])
    ∧ joinObject (.obj [("tags", .arr [.prim "a", .prim "a"])]) [.obj []]
      ≠ .ok (.obj [("tags", .arr [.prim "a", .prim "a"])]) := by
  decide

/-- C6 (confirmed).  When the overlay value at a key is a list, the merged
value at that key is the existing list concatenated with the overlay list and
deduplicated by structural deep equality, keeping the first occurrence of
each distinct element in order (`dedupFirst`, shown in `jsDedup_eq_dedupFirst`
to be what the source's index-based `filter`/`findIndex` computes); in
particular `merge({tags:["a","b"]}, {tags:["b","c"]})` is
`{tags:["a","b","c"]}`. -/
theorem C6_array_merge_dedup (k : String) (ys xs : List DVal) :
    joinObject (.obj [(k, .arr ys)]) [.obj [(k, .arr xs)]]
      = .ok (.obj [(k, .arr (dedupFirst (ys ++ xs)))])
    ∧ joinObject (.obj [("tags", .arr [.prim "a", .prim "b"])])
        [.obj [("tags", .arr [.prim "b", .prim "c"])]]
      = .ok (.obj [("tags", .arr [.prim "a", .prim "b", .prim "c"])]) :=
  ⟨joinObject_array_merge k ys xs, by decide⟩

/-! ## The claim on the middleware identity guard (C2) -/

/-- C2 (corrected).  The guard's at-most-once behavior is opt-in: the wrapper
does consult the per-request set of already-executed identifiers, but an
identifier only enters that set when the middleware body itself calls the
installed `req.executeOnce()` toggle.  For a middleware that opts in (and is
not a `router`-named passthrough, passes control on, and does not finalize
the response), one middleware instance reachable through two attachment
paths into the same chain is invoked exactly once per simulated request; a
new simulated request starts from the same fresh guard state, and the run —
a function of the chain and the start state only — invokes it once again.
For a middleware that does not opt in the underlying handler runs once per
occurrence (`C2_non_opting_invoked_twice`). -/
theorem C2_guard_opt_in (m : MWFn) (hr : m.isRouterNamed = false)
    (ho : m.optsOnce = true) (hn : m.callsNext = true) (hs : m.sends = false) :
    (runChain [createDynamicMiddleware m, createDynamicMiddleware m] freshReq).invocations
      = [m.ref] := by
  have hw : createDynamicMiddleware m = ChainItem.wrapped m := by
    simp [createDynamicMiddleware, hr]
  simp [runChain, hw, runChainItem, freshReq, invokeBody, ho, hn, hs]

theorem C2_guard_opt_in_witness :
    (runChain [createDynamicMiddleware ⟨0, none, false, true, true, false⟩,
      createDynamicMiddleware ⟨0, none, false, true, true, false⟩] freshReq).invocations
      = [0] :=
  C2_guard_opt_in ⟨0, none, false, true, true, false⟩ rfl rfl rfl rfl

/-- C2, counterexample to the unconditional reading: a middleware that never
calls `req.executeOnce()` is invoked once per occurrence in the chain — twice,
not exactly once — within one simulated request, because nothing adds its
identifier to the per-request set. -/
theorem C2_non_opting_invoked_twice :
    (runChain [createDynamicMiddleware ⟨0, none, false, false, true, false⟩,
      createDynamicMiddleware ⟨0, none, false, false, true, false⟩] freshReq).invocations
      = [0, 0]
    ∧ (runChain [createDynamicMiddleware ⟨0, none, false, false, true, false⟩,
      createDynamicMiddleware ⟨0, none, false, false, true, false⟩] freshReq).invocations
      ≠ [0] := by
  decide

/-! ## The claim on the sequential executor (C10) -/

/-- Spec-side stop point of the executor's loop, for comparison with the
source-translated `execLoop`: the loop runs up to and including the first
handler that finalizes the response, else through the whole chain. -/
def specStop (ms : List SimBeh) : Nat :=
  match ms.findIdx? (fun m => m.sends) with
  | some j => j + 1
  | none => ms.length

theorem specStop_cons_not {m : SimBeh} {ms2 : List SimBeh} (h : m.sends = false) :
    specStop (m :: ms2) = specStop ms2 + 1 := by
  cases hfi : ms2.findIdx? (fun m2 => m2.sends) <;>
    simp [specStop, List.findIdx?_cons, h, hfi]

theorem specStop_cons_sends {m : SimBeh} {ms2 : List SimBeh} (h : m.sends = true) :
    specStop (m :: ms2) = 1 := by
  simp [specStop, List.findIdx?_cons, h]

/-- A finalized response stops the loop before any further invocation. -/
theorem execLoop_sent (ms : List SimBeh) (ns : Bool) (k : Nat) (tr : List (Nat × Bool)) :
    execLoop ms ns k true tr = (true, tr) := by
  unfold execLoop
  split <;> simp

theorem execLoop_trace_aux (ms : List SimBeh) (ns : Bool) :
    ∀ (n i : Nat) (trace : List (Nat × Bool)), ms.length - i ≤ n →
    (execLoop ms ns i false trace).2
      = trace ++ (List.range' i (specStop (ms.drop i))).map
          (fun j => (j, decide (ms.length - 1 ≤ j))) := by
  intro n
  induction n with
  | zero =>
    intro i trace hni
    have hge : ¬ i < ms.length := by omega
    rw [execLoop, dif_neg hge]
    rw [List.drop_eq_nil_of_le (by omega)]
    simp [specStop]
  | succ n ih =>
    intro i trace hni
    by_cases hlt : i < ms.length
    · rw [execLoop, dif_pos hlt]
      simp only [Bool.false_eq_true, if_false]
      rw [List.drop_eq_getElem_cons hlt]
      cases hms : ms[i].sends
      · by_cases hlast : ms.length - 1 ≤ i
        · have hterm : ¬ i + 1 < ms.length := by omega
          have hdrop : ms.drop (i + 1) = [] := List.drop_eq_nil_of_le (by omega)
          rw [execLoop, dif_neg hterm]
          simp only [hms, hdrop]
          simp [specStop, List.findIdx?_cons, hms, List.range'_succ, decide_eq_true hlast]
        · have hflag : decide (ms.length - 1 ≤ i) = false := decide_eq_false hlast
          simp only [hms, hflag, Bool.false_and, Bool.and_false,
            Bool.false_or, Bool.or_false]
          rw [ih (i + 1) (trace ++ [(i, false)]) (by omega)]
          rw [show specStop (ms[i] :: ms.drop (i + 1))
              = specStop (ms.drop (i + 1)) + 1 from specStop_cons_not hms]
          rw [List.range'_succ]
          simp only [List.map_cons, hflag, List.append_assoc, List.cons_append,
            List.nil_append]
      · simp only [hms, Bool.true_or]
        rw [execLoop_sent, specStop_cons_sends hms, List.range'_one]
        simp only [List.map_cons, List.map_nil]
    · rw [execLoop, dif_neg hlt]
      rw [List.drop_eq_nil_of_le (by omega)]
      simp [specStop]

/-- C10 (confirmed).  The sequential executor's behavior, characterized by
its invocation trace (position, received the caller's real continuation):
starting from an open response it invokes positions `0, 1, ...` in order
(each invocation awaited to completion before the next starts, the loop
advancing whether or not the handler called the callback it received — the
trace does not depend on any handler's `callsNext`), it stops right after
the first handler that finalizes the response and otherwise runs the whole
chain (`specStop`), and an invocation receives the real continuation exactly
when it sits at the final chain position (`length - 1 ≤ i`), every earlier
one getting the no-op; the trace also does not depend on what the real
continuation does (`nextSends`).  Starting from an already-finalized
response, nothing is invoked at all. -/
theorem C10_sequential_executor (stack : List LEntry) (beh : Nat → SimBeh) (nextSends : Bool) :
    (executeMiddlewares stack beh nextSends false).2
      = (List.range (specStop ((mwChain stack).map (fun h => beh h.hid)))).map
          (fun i => (i, decide (((mwChain stack).map (fun h => beh h.hid)).length - 1 ≤ i)))
    ∧ (executeMiddlewares stack beh nextSends true).2 = [] := by
  constructor
  · rw [executeMiddlewares, execLoop_trace_aux ((mwChain stack).map (fun h => beh h.hid))
      nextSends ((mwChain stack).map (fun h => beh h.hid)).length 0 [] (by omega)]
    rw [List.drop_zero, List.range_eq_range']
    simp
  · rw [executeMiddlewares, execLoop_sent]

/-! ## The claim on the path joiner (C3) -/

/-- No two adjacent separators in a character list.  Spec-side predicate
formalizing "repeated separators have collapsed to one", for comparison with
the source-translated `joinPath`. -/
def noDup2 : List Char → Bool
  | c1 :: c2 :: rest => !(c1 == '/' && c2 == '/') && noDup2 (c2 :: rest)
  | _ => true

/-- A string with no "//" anywhere. -/
def sepRunFree (s : String) : Bool := noDup2 s.toList

theorem intercalate_go_foldl (s : String) :
    ∀ (l : List String) (acc : String),
    String.intercalate.go acc s l = l.foldl (fun r a => r ++ s ++ a) acc := by
  intro l
  induction l with
  | nil => intro acc; rfl
  | cons a as ih =>
    intro acc
    rw [List.foldl_cons]
    exact ih (acc ++ s ++ a)

/-- `[x0, ...].join("/")` with a leading empty segment is the left fold that
appends "/" then the segment. -/
theorem joinPath_foldl (ps : List String) :
    joinPath ps
      = ((ps.map stripSeps).filter (fun p => !(trimsToEmpty p))).foldl
          (fun r a => r ++ "/" ++ a) "" := by
  rw [joinPath]
  exact intercalate_go_foldl "/" _ ""

theorem noDup2_tail {a : Char} {l : List Char} (h : noDup2 (a :: l) = true) :
    noDup2 l = true := by
  cases l with
  | nil => rfl
  | cons b t =>
    simp only [noDup2, Bool.and_eq_true] at h
    exact h.2

theorem noDup2_prefix : ∀ (xs ys : List Char), noDup2 (xs ++ ys) = true →
    noDup2 xs = true := by
  intro xs ys
  induction xs with
  | nil => intro _; rfl
  | cons a t ih =>
    cases t with
    | nil => intro _; rfl
    | cons b t2 =>
      intro h
      simp only [List.cons_append, noDup2, Bool.and_eq_true] at h ⊢
      exact ⟨h.1, ih (by simp only [List.cons_append]; exact h.2)⟩

theorem noDup2_suffix : ∀ (xs ys : List Char), noDup2 (xs ++ ys) = true →
    noDup2 ys = true := by
  intro xs ys
  induction xs with
  | nil => intro h; simpa using h
  | cons a t ih =>
    intro h
    exact ih (noDup2_tail (by simpa using h))

theorem noDup2_of_suffix {xs l : List Char} (h : xs <:+ l) (hl : noDup2 l = true) :
    noDup2 xs = true := by
  obtain ⟨t, ht⟩ := h
  exact noDup2_suffix t xs (ht ▸ hl)

theorem stripSeps_toList (p : String) :
    (stripSeps p).toList
      = ((p.toList.dropWhile (fun c => c = '/')).reverse.dropWhile
          (fun c => c = '/')).reverse := rfl

theorem noDup2_stripSeps (p : String) (h : noDup2 p.toList = true) :
    noDup2 (stripSeps p).toList = true := by
  rw [stripSeps_toList]
  have h1 : noDup2 (p.toList.dropWhile (fun c => c = '/')) = true :=
    noDup2_of_suffix (List.dropWhile_suffix _) h
  obtain ⟨t, ht⟩ :
      ((p.toList.dropWhile (fun c => c = '/')).reverse.dropWhile (fun c => c = '/'))
        <:+ (p.toList.dropWhile (fun c => c = '/')).reverse :=
    List.dropWhile_suffix _
  have hpre : p.toList.dropWhile (fun c => c = '/')
      = ((p.toList.dropWhile (fun c => c = '/')).reverse.dropWhile
          (fun c => c = '/')).reverse ++ t.reverse := by
    have h2 := congrArg List.reverse ht
    rw [List.reverse_append, List.reverse_reverse] at h2
    exact h2.symm
  exact noDup2_prefix _ _ (hpre ▸ h1)

theorem dropWhile_head_not_sep {l : List Char} {a : Char}
    (h : (l.dropWhile (fun c => c = '/')).head? = some a) : a ≠ '/' := by
  have h2 := List.head?_dropWhile_not (fun c => decide (c = '/')) l
  rw [h] at h2
  exact of_decide_eq_false h2

theorem stripSeps_head_ne (p : String) {a : Char}
    (h : (stripSeps p).toList.head? = some a) : a ≠ '/' := by
  rw [stripSeps_toList, List.head?_reverse] at h
  obtain ⟨t, ht⟩ :
      ((p.toList.dropWhile (fun c => c = '/')).reverse.dropWhile (fun c => c = '/'))
        <:+ (p.toList.dropWhile (fun c => c = '/')).reverse :=
    List.dropWhile_suffix _
  have h3 : (p.toList.dropWhile (fun c => c = '/')).reverse.getLast? = some a := by
    rw [← ht, List.getLast?_append, h]
    rfl
  rw [List.getLast?_reverse] at h3
  exact dropWhile_head_not_sep h3

theorem stripSeps_getLast_ne (p : String) {a : Char}
    (h : (stripSeps p).toList.getLast? = some a) : a ≠ '/' := by
  rw [stripSeps_toList, List.getLast?_reverse] at h
  exact dropWhile_head_not_sep h

theorem kept_chunk_ok {ps : List String} (h : ∀ p ∈ ps, sepRunFree p = true) :
    ∀ c ∈ (ps.map stripSeps).filter (fun p => !(trimsToEmpty p)),
      c.toList ≠ [] ∧ noDup2 c.toList = true
      ∧ c.toList.head? ≠ some '/' ∧ c.toList.getLast? ≠ some '/' := by
  intro c hc
  rw [List.mem_filter] at hc
  obtain ⟨hmem, hkeep⟩ := hc
  rw [List.mem_map] at hmem
  obtain ⟨p, hp, rfl⟩ := hmem
  refine ⟨?_, noDup2_stripSeps p (h p hp), ?_, ?_⟩
  · intro hnil
    have h2 : trimsToEmpty (stripSeps p) = true := by
      have hd : (stripSeps p).data = [] := hnil
      simp [trimsToEmpty, String.toList, hd]
    rw [h2] at hkeep
    simp at hkeep
  · intro hh
    exact stripSeps_head_ne p hh rfl
  · intro hh
    exact stripSeps_getLast_ne p hh rfl

theorem noDup2_sep_cons {cs : List Char} (h1 : noDup2 cs = true)
    (h2 : cs.head? ≠ some '/') : noDup2 ('/' :: cs) = true := by
  cases cs with
  | nil => rfl
  | cons c t =>
    have hc : c ≠ '/' := fun hcc => h2 (by rw [hcc]; rfl)
    simp only [noDup2, Bool.and_eq_true]
    exact ⟨by simp [hc], h1⟩

theorem noDup2_append_sep : ∀ (xs cs : List Char), noDup2 xs = true →
    xs.getLast? ≠ some '/' → noDup2 cs = true → cs.head? ≠ some '/' →
    noDup2 (xs ++ '/' :: cs) = true := by
  intro xs
  induction xs with
  | nil =>
    intro cs _ _ h3 h4
    simpa using noDup2_sep_cons h3 h4
  | cons a t ih =>
    intro cs h1 h2 h3 h4
    cases t with
    | nil =>
      have ha : a ≠ '/' := fun hc => h2 (by rw [hc]; simp)
      simp only [List.cons_append, List.nil_append, noDup2, Bool.and_eq_true]
      exact ⟨by simp [ha], noDup2_sep_cons h3 h4⟩
    | cons b t2 =>
      have h1' : noDup2 (b :: t2) = true := noDup2_tail h1
      have hpair : (!(a == '/' && b == '/')) = true := by
        simp only [noDup2, Bool.and_eq_true] at h1
        exact h1.1
      have h2' : (b :: t2).getLast? ≠ some '/' := by
        rw [List.getLast?_cons_cons] at h2
        exact h2
      have h5 := ih cs h1' h2' h3 h4
      simp only [List.cons_append, noDup2, Bool.and_eq_true] at h5 ⊢
      exact ⟨hpair, h5⟩

theorem toList_sep_append (r a : String) :
    (r ++ "/" ++ a).toList = r.toList ++ '/' :: a.toList := by
  simp [String.toList, List.append_assoc]

theorem joinPath_foldl_noDup2 : ∀ (chunks : List String) (acc : String),
    noDup2 acc.toList = true → acc.toList.getLast? ≠ some '/' →
    (∀ c ∈ chunks, c.toList ≠ [] ∧ noDup2 c.toList = true
      ∧ c.toList.head? ≠ some '/' ∧ c.toList.getLast? ≠ some '/') →
    noDup2 ((chunks.foldl (fun r a => r ++ "/" ++ a) acc).toList) = true := by
  intro chunks
  induction chunks with
  | nil =>
    intro acc h1 _ _
    simpa using h1
  | cons c cs ih =>
    intro acc h1 h2 hcs
    rw [List.foldl_cons]
    obtain ⟨hcne, hcnd, hch, hcl⟩ := hcs c (List.mem_cons_self c cs)
    apply ih
    · rw [toList_sep_append]
      exact noDup2_append_sep _ _ h1 h2 hcnd hch
    · rw [toList_sep_append, List.getLast?_append]
      have hgc : ('/' :: c.toList).getLast? = c.toList.getLast? := by
        cases hc2 : c.toList with
        | nil => exact absurd hc2 hcne
        | cons x xs => rw [List.getLast?_cons_cons]
      rw [hgc]
      cases hgl : c.toList.getLast? with
      | none => simpa using h2
      | some w =>
        have hw : w ≠ '/' := fun hc3 => hcl (by rw [hgl, hc3])
        simp [hw]
    · intro c2 hc2
      exact hcs c2 (List.mem_cons_of_mem c hc2)

theorem foldl_sep_head : ∀ (cs : List String) (acc : String), acc.toList ≠ [] →
    ((cs.foldl (fun r a => r ++ "/" ++ a) acc).toList).head? = acc.toList.head? := by
  intro cs
  induction cs with
  | nil => intro acc _; rfl
  | cons c t ih =>
    intro acc hne
    rw [List.foldl_cons]
    have hne2 : (acc ++ "/" ++ c).toList ≠ [] := by
      rw [toList_sep_append]
      simp
    rw [ih _ hne2, toList_sep_append, List.head?_append]
    cases hal : acc.toList with
    | nil => exact absurd hal hne
    | cons x xs => simp

/-- C3 (corrected).  The path joiner trims the separator runs at each
segment's two edges, drops segments that are blank after trimming
(empty or whitespace-only, per `String.prototype.trim`), and joins the kept
segments with single separators after a leading empty segment, so the result
is the empty string or separator-prefixed, and separator runs at segment
*edges* collapse: when no input segment has an *interior* "//" the output has
none.  An interior run survives verbatim —
`C3_interior_separators_survive` — refuting the claim that repeated
separators *anywhere* in the input collapse.  The claim's example holds:
joining "/a/", "//b", "", "c/" yields "/a/b/c" (the "//" of "//b" is a
leading run, which is trimmed). -/
theorem C3_joinPath (ps : List String) (h : ∀ p ∈ ps, sepRunFree p = true) :
    sepRunFree (joinPath ps) = true
    ∧ (joinPath ps = "" ∨ (joinPath ps).toList.head? = some '/')
    ∧ joinPath ["/a/", "//b", "", "c/"] = "/a/b/c" := by
  refine ⟨?_, ?_, by decide⟩
  · rw [sepRunFree, joinPath_foldl]
    exact joinPath_foldl_noDup2 _ "" rfl (by intro hx; cases hx) (kept_chunk_ok h)
  · rw [joinPath_foldl]
    cases hk : (ps.map stripSeps).filter (fun p => !(trimsToEmpty p)) with
    | nil => exact Or.inl rfl
    | cons c cs =>
      refine Or.inr ?_
      have hne : ("" ++ "/" ++ c).toList ≠ [] := by
        rw [toList_sep_append]
        simp
      rw [List.foldl_cons, foldl_sep_head cs _ hne, toList_sep_append]
      rfl

theorem C3_joinPath_witness :
    (∀ p ∈ ["/a/", "b"], sepRunFree p = true)
    ∧ (sepRunFree (joinPath ["/a/", "b"]) = true
      ∧ (joinPath ["/a/", "b"] = "" ∨ (joinPath ["/a/", "b"]).toList.head? = some '/')
      ∧ joinPath ["/a/", "//b", "", "c/"] = "/a/b/c") :=
  ⟨by decide, C3_joinPath ["/a/", "b"] (by decide)⟩

/-- C3, counterexample to "repeated separators anywhere in the input have
collapsed to one": a separator run in a segment's interior is preserved
verbatim, so joining the single segment "a//b" yields "/a//b", which still
contains "//". -/
theorem C3_interior_separators_survive :
    joinPath ["a//b"] = "/a//b"
    ∧ sepRunFree (joinPath ["a//b"]) = false := by
  decide

/-! ## The claims on the flattener Layer.routes (C7, C8, C9) -/

/-- The components of a flattened route the flattener determines
structurally (everything but the merged doc, whose value C7-C9 do not
concern). -/
def routeKey (r : IRoute) : Nat × String × String × List HandlerF :=
  (r.index, r.path, r.method, r.handle)

/-- What one entry contributes to the flattened list, given the middleware
chain inherited at its position and its entry index: a `middleware` entry
emits nothing; a leaf emits one route carrying the entry index, its
insert-time path and method, and the inherited chain followed by its own
handlers; a subtree entry emits its child's flattened routes in child order,
each re-joined under the entry path, with the inherited chain, the entry's
own handlers and the child route's handlers in that order. -/
def blockHead (mids : List HandlerF) (idx : Nat) (e : LEntry)
    (b0 : List IRoute) : Prop :=
  match e with
  | .middleware _ _ => b0 = []
  | .layer p m h _ => b0.map routeKey = [(idx, p, m, mids ++ h)]
  | .routeE p h _ child =>
    ∃ crs, layerRoutes child = .ok crs ∧
      b0.map routeKey = crs.map (fun r =>
        (idx, joinPath [p, r.path], r.method, mids ++ h.getD [] ++ r.handle))

/-- Per-entry decomposition of a flattened route list: block `j` holds
exactly what entry `j` contributes, with the middleware accumulated over the
entries before it and index `idx + j`. -/
def blockSpec (mids : List HandlerF) (idx : Nat) (entries : List LEntry)
    (blocks : List (List IRoute)) : Prop :=
  ∀ (j : Nat) (hj : j < entries.length) (hb : j < blocks.length),
    blockHead (mids ++ mwChain (entries.take j)) (idx + j)
      (entries.get ⟨j, hj⟩) (blocks.get ⟨j, hb⟩)

theorem mwChain_nil : mwChain [] = [] := rfl

theorem mwChain_cons (e : LEntry) (l : List LEntry) :
    mwChain (e :: l) = mwChain [e] ++ mwChain l := by
  cases e <;> simp [mwChain]

theorem mwChain_middleware (handle : List HandlerF) (d : Option DVal) :
    mwChain [LEntry.middleware handle d] = handle := by
  simp [mwChain]

theorem mwChain_layer (p m : String) (h : List HandlerF) (d : Option DVal) :
    mwChain [LEntry.layer p m h d] = [] := rfl

theorem mwChain_routeE (p : String) (h : Option (List HandlerF)) (d : Option DVal)
    (child : List LEntry) : mwChain [LEntry.routeE p h d child] = [] := rfl

theorem mwChain_append (a b : List LEntry) :
    mwChain (a ++ b) = mwChain a ++ mwChain b := by
  simp [mwChain, List.filter_append, List.flatMap_append]

theorem mapM_ok_proj {α β γ : Type} (f : α → Except Unit β) (proj : β → γ) (g : α → γ)
    (hfg : ∀ a b, f a = .ok b → proj b = g a) :
    ∀ (l : List α) (out : List β), l.mapM f = .ok out → out.map proj = l.map g := by
  intro l
  induction l with
  | nil =>
    intro out h
    rw [List.mapM_nil] at h
    have h2 : ([] : List β) = out := by injection h
    rw [← h2]
    rfl
  | cons a t ih =>
    intro out h
    rw [List.mapM_cons] at h
    cases hfa : f a with
    | error e =>
      simp only [hfa] at h
      exact Except.noConfusion h
    | ok b =>
      simp only [hfa] at h
      cases hmt : t.mapM f with
      | error e =>
        simp only [hmt] at h
        exact Except.noConfusion h
      | ok bs =>
        simp only [hmt] at h
        have h2 : b :: bs = out := by injection h
        rw [← h2]
        simp only [List.map_cons]
        rw [hfg a b hfa, ih bs hmt]

theorem blockSpec_nil (mids : List HandlerF) (idx : Nat) :
    blockSpec mids idx [] [] := by
  intro j hj hb
  exact absurd hj (Nat.not_lt_zero j)

theorem blockSpec_cons (e : LEntry) (rest : List LEntry) (mids : List HandlerF)
    (idx : Nat) (b0 : List IRoute) (blocks : List (List IRoute))
    (hhead : blockHead mids idx e b0)
    (htail : blockSpec (mids ++ mwChain [e]) (idx + 1) rest blocks) :
    blockSpec mids idx (e :: rest) (b0 :: blocks) := by
  intro j hj hb
  cases j with
  | zero =>
    have h1 : mids ++ mwChain ((e :: rest).take 0) = mids := by
      simp [mwChain]
    have h2 : (e :: rest).get ⟨0, hj⟩ = e := rfl
    have h3 : (b0 :: blocks).get ⟨0, hb⟩ = b0 := rfl
    rw [h1, h2, h3, Nat.add_zero]
    exact hhead
  | succ j2 =>
    have hj2 : j2 < rest.length := by simpa using hj
    have hb2 : j2 < blocks.length := by simpa using hb
    have hs := htail j2 hj2 hb2
    have h2 : (e :: rest).get ⟨j2 + 1, hj⟩ = rest.get ⟨j2, hj2⟩ := rfl
    have h3 : (b0 :: blocks).get ⟨j2 + 1, hb⟩ = blocks.get ⟨j2, hb2⟩ := rfl
    have h4 : mids ++ mwChain ((e :: rest).take (j2 + 1))
        = (mids ++ mwChain [e]) ++ mwChain (rest.take j2) := by
      rw [List.take_succ_cons, mwChain_cons, List.append_assoc]
    have h5 : idx + (j2 + 1) = (idx + 1) + j2 := by omega
    rw [h2, h3, h4, h5]
    exact hs

theorem routesGo_blocks : ∀ (entries : List LEntry) (mids : List HandlerF)
    (docs : List DVal) (idx : Nat) (rs : List IRoute),
    routesGo mids docs idx entries = .ok rs →
    ∃ blocks : List (List IRoute),
      rs = blocks.flatten ∧ blocks.length = entries.length
      ∧ blockSpec mids idx entries blocks := by
  intro entries
  induction entries with
  | nil =>
    intro mids docs idx rs h
    simp only [routesGo] at h
    have h2 : ([] : List IRoute) = rs := by injection h
    exact ⟨[], by rw [← h2]; rfl, rfl, blockSpec_nil mids idx⟩
  | cons e rest ih =>
    intro mids docs idx rs h
    cases e with
    | middleware handle d =>
      simp only [routesGo] at h
      obtain ⟨blocks, hflat, hlen, hspec⟩ := ih _ _ _ _ h
      refine ⟨[] :: blocks, by simpa using hflat, by simpa using hlen, ?_⟩
      apply blockSpec_cons
      · exact rfl
      · rw [mwChain_middleware]
        exact hspec
    | layer p m handle d =>
      simp only [routesGo] at h
      split at h
      · exact Except.noConfusion h
      · rename_i doc hjd
        split at h
        · exact Except.noConfusion h
        · rename_i rs2 hrest
          have h2 : (⟨idx, p, m, mids ++ handle, doc⟩ : IRoute) :: rs2 = rs := by
            injection h
          obtain ⟨blocks, hflat, hlen, hspec⟩ := ih _ _ _ _ hrest
          refine ⟨[⟨idx, p, m, mids ++ handle, doc⟩] :: blocks, ?_, by simpa using hlen, ?_⟩
          · rw [← h2, List.flatten_cons, ← hflat]
            rfl
          · apply blockSpec_cons
            · simp [blockHead, routeKey]
            · rw [mwChain_layer, List.append_nil]
              exact hspec
    | routeE p handle d child =>
      simp only [routesGo] at h
      split at h
      · exact Except.noConfusion h
      · rename_i crs hchild
        split at h
        · exact Except.noConfusion h
        · rename_i mine hmapm
          split at h
          · exact Except.noConfusion h
          · rename_i rs2 hrest
            have h2 : mine ++ rs2 = rs := by injection h
            obtain ⟨blocks, hflat, hlen, hspec⟩ := ih _ _ _ _ hrest
            refine ⟨mine :: blocks, ?_, by simpa using hlen, ?_⟩
            · rw [← h2, List.flatten_cons, ← hflat]
            · apply blockSpec_cons
              · refine ⟨crs, hchild, ?_⟩
                refine mapM_ok_proj _ routeKey _ ?_ crs mine hmapm
                intro r b hfb
                cases hjd : joinDocs (docs ++ getDocHandles (mids ++ handle.getD [] ++ r.handle)
                    ++ [d.getD emptyDoc, r.doc]) with
                | error e0 =>
                  rw [hjd] at hfb
                  exact Except.noConfusion hfb
                | ok doc =>
                  rw [hjd] at hfb
                  have h3 : (⟨idx, joinPath [p, r.path], r.method,
                      mids ++ handle.getD [] ++ r.handle, doc⟩ : IRoute) = b := by
                    injection hfb
                  rw [← h3]
                  rfl
              · rw [mwChain_routeE, List.append_nil]
                exact hspec

theorem blocks_index (mids : List HandlerF) (idx : Nat) (entries : List LEntry)
    (blocks : List (List IRoute)) (hspec : blockSpec mids idx entries blocks) :
    ∀ (j : Nat) (_hj : j < entries.length) (hb : j < blocks.length),
    ∀ r ∈ blocks.get ⟨j, hb⟩, r.index = idx + j := by
  intro j hj hb r hr
  have hs := hspec j hj hb
  cases hE : entries.get ⟨j, hj⟩ with
  | middleware h2 d =>
    rw [hE] at hs
    simp only [blockHead] at hs
    rw [hs] at hr
    simp at hr
  | layer p m h2 d =>
    rw [hE] at hs
    simp only [blockHead] at hs
    have h3 : routeKey r ∈ (blocks.get ⟨j, hb⟩).map routeKey :=
      List.mem_map_of_mem routeKey hr
    rw [hs] at h3
    exact congrArg (fun q => q.1) (List.mem_singleton.mp h3)
  | routeE p h2 d child =>
    rw [hE] at hs
    simp only [blockHead] at hs
    obtain ⟨crs, _, hmap⟩ := hs
    have h3 : routeKey r ∈ (blocks.get ⟨j, hb⟩).map routeKey :=
      List.mem_map_of_mem routeKey hr
    rw [hmap] at h3
    obtain ⟨cr, _, heq⟩ := List.mem_map.mp h3
    exact (congrArg (fun q => q.1) heq).symm

theorem modify_append_singleton {α : Type} (f : α → α) :
    ∀ (xs : List α) (e : α), (xs ++ [e]).modify f xs.length = xs ++ [f e] := by
  intro xs e
  induction xs with
  | nil => rfl
  | cons x t ih =>
    simp only [List.cons_append, List.length_cons, List.modify_succ_cons, ih]

/-- C7 (confirmed).  Flattening preserves declaration order: the flattened
list is the concatenation, in entry order, of one block per entry
(`blockSpec`): middleware entries contribute nothing, a leaf entry its one
route, and a subtree entry all its descendant routes contiguously at the
entry's position, in the child's own (depth-first) flattened order. -/
theorem C7_declaration_order (stack : List LEntry) (rs : List IRoute)
    (h : layerRoutes stack = .ok rs) :
    ∃ blocks : List (List IRoute),
      rs = blocks.flatten ∧ blocks.length = stack.length
      ∧ blockSpec [] 0 stack blocks :=
  routesGo_blocks stack [] [] 0 rs h

theorem C7_declaration_order_witness :
    ∃ blocks : List (List IRoute),
      [(⟨0, "/users", "get", [⟨0, none⟩], DVal.obj []⟩ : IRoute),
       ⟨1, "/admin/stats", "get", [⟨1, none⟩], DVal.obj []⟩] = blocks.flatten
      ∧ blocks.length = [LEntry.layer "/users" "get" [⟨0, none⟩] none,
          LEntry.routeE "/admin" none none
            [LEntry.layer "/stats" "get" [⟨1, none⟩] none]].length
      ∧ blockSpec [] 0 [LEntry.layer "/users" "get" [⟨0, none⟩] none,
          LEntry.routeE "/admin" none none
            [LEntry.layer "/stats" "get" [⟨1, none⟩] none]] blocks :=
  C7_declaration_order
    [LEntry.layer "/users" "get" [⟨0, none⟩] none,
     LEntry.routeE "/admin" none none [LEntry.layer "/stats" "get" [⟨1, none⟩] none]]
    [⟨0, "/users", "get", [⟨0, none⟩], DVal.obj []⟩,
     ⟨1, "/admin/stats", "get", [⟨1, none⟩], DVal.obj []⟩]
    (by simp only [layerRoutes, routesGo]; decide)

/-- C8 (confirmed).  A leaf route's resolved chain is exactly the middleware
inherited from the entries before it, in order, followed by the entry's own
handlers; so a middleware entry appended before the leaf appears in the
chain in full (second conjunct: the inherited chain of a stack splits around
each middleware entry in declaration order), precedes the leaf's own
handlers, and an entry appended after the leaf contributes nothing to it. -/
theorem C8_middleware_inheritance (stack : List LEntry) (j : Nat)
    (hj : j < stack.length) (p m : String) (h : List HandlerF) (d : Option DVal)
    (rs : List IRoute) (hget : stack.get ⟨j, hj⟩ = .layer p m h d)
    (hrs : layerRoutes stack = .ok rs) :
    (∃ r ∈ rs, r.index = j ∧ r.path = p ∧ r.method = m
      ∧ r.handle = mwChain (stack.take j) ++ h)
    ∧ ∀ (xs ys : List LEntry) (mw : List HandlerF) (dm : Option DVal),
        mwChain (xs ++ LEntry.middleware mw dm :: ys)
          = mwChain xs ++ mw ++ mwChain ys := by
  constructor
  · obtain ⟨blocks, hflat, hlen, hspec⟩ := routesGo_blocks stack [] [] 0 rs hrs
    have hb : j < blocks.length := by rw [hlen]; exact hj
    have hs := hspec j hj hb
    rw [hget] at hs
    simp only [blockHead] at hs
    cases hbl : blocks.get ⟨j, hb⟩ with
    | nil =>
      rw [hbl] at hs
      simp at hs
    | cons r t =>
      cases t with
      | cons r2 t2 =>
        rw [hbl] at hs
        simp at hs
      | nil =>
        rw [hbl] at hs
        simp only [List.map_cons, List.map_nil, List.cons.injEq, and_true] at hs
        have hmem : r ∈ rs := by
          rw [hflat]
          exact List.mem_flatten.mpr ⟨blocks.get ⟨j, hb⟩, List.get_mem blocks j hb,
            by rw [hbl]; exact List.mem_singleton_self r⟩
        refine ⟨r, hmem, ?_, ?_, ?_, ?_⟩
        · have := congrArg (fun q => q.1) hs
          simpa using this
        · exact congrArg (fun q => q.2.1) hs
        · exact congrArg (fun q => q.2.2.1) hs
        · have := congrArg (fun q => q.2.2.2) hs
          simpa using this
  · intro xs ys mw dm
    rw [show LEntry.middleware mw dm :: ys = [LEntry.middleware mw dm] ++ ys from rfl]
    rw [mwChain_append, mwChain_append, mwChain_middleware, List.append_assoc]

theorem C8_middleware_inheritance_witness :
    (∃ r ∈ [(⟨1, "/a", "get", [⟨5, none⟩, ⟨7, none⟩], DVal.obj []⟩ : IRoute)],
      r.index = 1 ∧ r.path = "/a" ∧ r.method = "get"
      ∧ r.handle = mwChain ([LEntry.middleware [⟨5, none⟩] none,
          LEntry.layer "/a" "get" [⟨7, none⟩] none].take 1) ++ [⟨7, none⟩])
    ∧ ∀ (xs ys : List LEntry) (mw : List HandlerF) (dm : Option DVal),
        mwChain (xs ++ LEntry.middleware mw dm :: ys)
          = mwChain xs ++ mw ++ mwChain ys :=
  C8_middleware_inheritance
    [LEntry.middleware [⟨5, none⟩] none, LEntry.layer "/a" "get" [⟨7, none⟩] none]
    1 (by decide) "/a" "get" [⟨7, none⟩] none
    [⟨1, "/a", "get", [⟨5, none⟩, ⟨7, none⟩], DVal.obj []⟩]
    rfl
    (by simp only [layerRoutes, routesGo]; decide)

/-- C9 (corrected).  A flattened route's `index` is the position in the
node's **entry stack** of the entry that produced it — all routes of one
subtree entry share its index, and middleware entries consume indices while
emitting no route — not the route's position in the flattened list
(`C9_index_not_list_position`).  The build-time handle returned by `pushPath`
addresses by that entry index: pushing returns `index = stack length before
the push`, and amending through it replaces exactly the doc of the entry at
that stack position. -/
theorem C9_entry_index (stack : List LEntry) (rs : List IRoute)
    (hrs : layerRoutes stack = .ok rs)
    (L : LayerB) (mname pth : String) (handle : List HandlerF) (d : DVal)
    (L2 : LayerB) (i : Nat)
    (hp : pushPath L false mname pth handle d = .ok (L2, i)) (d2 : Option DVal) :
    (∃ blocks : List (List IRoute),
      rs = blocks.flatten ∧ blocks.length = stack.length
      ∧ ∀ (j : Nat) (hb : j < blocks.length), ∀ r ∈ blocks.get ⟨j, hb⟩, r.index = j)
    ∧ i = L.stack.length
    ∧ (amendDoc L2 i d2).stack = L.stack ++ [LEntry.layer pth mname handle d2] := by
  obtain ⟨blocks, hflat, hlen, hspec⟩ := routesGo_blocks stack [] [] 0 rs hrs
  cases hjd : joinDocs (L.doc :: getDocHandles handle ++ [d]) with
  | error e0 =>
    rw [pushPath, hjd] at hp
    exact Except.noConfusion hp
  | ok dd =>
    rw [pushPath, hjd] at hp
    simp only [Bool.false_eq_true, if_false] at hp
    have h2 : ((⟨L.path, L.doc, L.stack ++ [LEntry.layer pth mname handle (some dd)]⟩ : LayerB),
        L.stack.length) = (L2, i) := by injection hp
    have hL2 : (⟨L.path, L.doc, L.stack ++ [LEntry.layer pth mname handle (some dd)]⟩ : LayerB)
        = L2 := congrArg Prod.fst h2
    have hi : L.stack.length = i := congrArg Prod.snd h2
    refine ⟨⟨blocks, hflat, hlen, ?_⟩, hi.symm, ?_⟩
    · intro j hb r hr
      have hj : j < stack.length := by rw [← hlen]; exact hb
      have h3 := blocks_index [] 0 stack blocks hspec j hj hb r hr
      simpa using h3
    · rw [← hL2, ← hi]
      show (L.stack ++ [LEntry.layer pth mname handle (some dd)]).modify
        (fun e => setEntryDoc e d2) L.stack.length = _
      rw [modify_append_singleton]
      rfl

theorem C9_entry_index_witness :
    (∃ blocks : List (List IRoute),
      [(⟨1, "/a", "get", [], DVal.obj []⟩ : IRoute)] = blocks.flatten
      ∧ blocks.length = [LEntry.middleware [] none,
          LEntry.layer "/a" "get" [] none].length
      ∧ ∀ (j : Nat) (hb : j < blocks.length), ∀ r ∈ blocks.get ⟨j, hb⟩, r.index = j)
    ∧ 0 = (mkLayer "" emptyDoc).stack.length
    ∧ (amendDoc ⟨"", emptyDoc, [LEntry.layer "/x" "get" [] (some (DVal.obj []))]⟩ 0
        (some (DVal.obj [("s", DVal.prim "1")]))).stack
      = (mkLayer "" emptyDoc).stack
        ++ [LEntry.layer "/x" "get" [] (some (DVal.obj [("s", DVal.prim "1")]))] :=
  C9_entry_index [LEntry.middleware [] none, LEntry.layer "/a" "get" [] none]
    [⟨1, "/a", "get", [], DVal.obj []⟩]
    (by simp only [layerRoutes, routesGo]; decide)
    (mkLayer "" emptyDoc) "get" "/x" [] emptyDoc
    ⟨"", emptyDoc, [LEntry.layer "/x" "get" [] (some (DVal.obj []))]⟩ 0
    rfl (some (DVal.obj [("s", DVal.prim "1")]))

/-- C9, counterexample to "index equals position in the flattened list": a
stack whose first entry is a middleware and whose second is a leaf flattens
to a single route at list position 0 that carries index 1 (the position of
the leaf entry in the stack). -/
theorem C9_index_not_list_position :
    layerRoutes [LEntry.middleware [] none, LEntry.layer "/a" "get" [] none]
      = .ok [⟨1, "/a", "get", [], .obj []⟩]
    ∧ (⟨1, "/a", "get", [], DVal.obj []⟩ : IRoute).index ≠ 0 := by
  constructor
  · simp only [layerRoutes, routesGo]
    decide
  · decide

/-! ## The claim on subtree path joining (C1) -/

/-- C1 (code_bug).  Building the claim's tree — a root node, `GET "/users"`
with doc `{summary:"list"}`, then a subtree at `"/admin"` containing
`GET "/stats"` with doc `{tags:["ops"]}` — and flattening yields the second
route at path `"/admin/admin/stats"`, not the expected `"/admin/stats"`:
`route(path)` stores `path` on the pushed subtree entry while also baking
`joinPath(this.path, path)` into the child node's prefix (so the child's own
leaf already embeds `"/admin"`), and the flattener then re-joins
`joinPath(layer.path, route.path)`, repeating the subtree segment. -/
theorem C1_subtree_path_duplicated :
    ∃ root1 admin1 : LayerB,
      layerGet mkLayer "/users" [⟨0, none⟩] (.obj [("summary", .prim "list")])
        = .ok (root1, 0)
      ∧ layerGet (routeChild root1 "/admin") "/stats" [⟨1, none⟩]
          (.obj [("tags", .arr [.prim "ops"])]) = .ok (admin1, 0)
      ∧ layerRoutes (routeAttach root1 "/admin" admin1.stack).stack
        = .ok [⟨0, "/users", "get", [⟨0, none⟩], .obj [("summary", .prim "list")]⟩,
               ⟨1, "/admin/admin/stats", "get", [⟨1, none⟩],
                 .obj [("tags", .arr [.prim "ops"])]⟩]
      ∧ "/admin/admin/stats" ≠ "/admin/stats" := by
  refine ⟨⟨"", emptyDoc,
      [.layer "/users" "get" [⟨0, none⟩] (some (.obj [("summary", .prim "list")]))]⟩,
    ⟨"/admin", emptyDoc, [.layer "/admin/stats" "get" [⟨1, none⟩]
      (some (.obj [("tags", .arr [.prim "ops"])]))]⟩, rfl, rfl, ?_, by decide⟩
  simp only [layerRoutes, routesGo, routeAttach, List.cons_append, List.nil_append]
  decide
